import Mathlib

/-!
# kew: wordlist extraction from script text and URL components

A shallow embedding of `kew.go`.  A Go `string` is modelled by a Lean `String`
(a sequence of Unicode scalar values, i.e. a valid UTF-8 string); `len(s)` is
the UTF-8 byte length and `s[0]` the first UTF-8 byte.  A Go `map[string]bool`
used as a set is modelled by the list of its keys (no key twice), and `range`
over it by an arbitrary permutation of that list.
-/

namespace Kew

/-! ## Library functions used by the program -/

/-- Unicode case data for runes above U+007F, as consulted by Go's
`unicode.IsUpper` and `unicode.ToLower`.  The tables are not part of the
program, so they are a parameter; on ASCII both functions are fixed below. -/
structure UnicodeTables where
  upper : Char → Bool
  lower : Char → Char

/-- Go `unicode.IsUpper`: on ASCII exactly `A`..`Z`, above it the table. -/
def unicodeIsUpper (U : UnicodeTables) (r : Char) : Bool :=
  if r.toNat < 128 then r.isUpper else U.upper r

/-- Go `unicode.ToLower`: on ASCII `A`..`Z` go to `a`..`z`, above it the table. -/
def unicodeToLower (U : UnicodeTables) (r : Char) : Char :=
  if r.toNat < 128 then r.toLower else U.lower r

/-- Go `strings.ToLower`: every rune is mapped by `unicode.ToLower`. -/
def toLower (U : UnicodeTables) (s : String) : String :=
  String.mk (s.data.map (unicodeToLower U))

/-- First byte of the UTF-8 encoding of a rune. -/
def utf8FirstByte (c : Char) : Nat :=
  if c.toNat < 0x80 then c.toNat
  else if c.toNat < 0x800 then 0xC0 + c.toNat / 0x40
  else if c.toNat < 0x10000 then 0xE0 + c.toNat / 0x1000
  else 0xF0 + c.toNat / 0x40000

/-- Go `s[0]` (only evaluated on a non-empty string). -/
def byteAt0 (s : String) : Nat :=
  match s.data with
  | [] => 0
  | c :: _ => utf8FirstByte c

/-- Go `range` over a `map[string]bool`: the keys are visited in an order the
language leaves unspecified, each key once. -/
structure MapIter where
  order : List String → List String
  perm : ∀ keys, (order keys).Perm keys

/-- The iteration that visits the keys in insertion order. -/
def MapIter.insertion : MapIter := ⟨fun keys => keys, fun keys => List.Perm.refl keys⟩

/-- Go `m[k] = true` on a map whose keys are listed in `m`. -/
def mapInsert (m : List String) (k : String) : List String :=
  if k ∈ m then m else m ++ [k]

/-- Scanning loop of Go `strings.FieldsFunc`: `cur` is the field being read
(`none` when no field is open, Go's `start < 0`). -/
def fieldsFuncLoop (f : Char → Bool) : List Char → Option (List Char) → List String
  | [], none => []
  | [], some cur => [String.mk cur]
  | r :: rs, none =>
      if f r then fieldsFuncLoop f rs none else fieldsFuncLoop f rs (some [r])
  | r :: rs, some cur =>
      if f r then String.mk cur :: fieldsFuncLoop f rs none
      else fieldsFuncLoop f rs (some (cur ++ [r]))

/-- Go `strings.FieldsFunc(s, f)`. -/
def fieldsFunc (f : Char → Bool) (s : String) : List String :=
  fieldsFuncLoop f s.data none

/-- The character class of `wordPattern`, `[a-zA-Z0-9_\-\.]`. -/
def isWordChar (c : Char) : Bool :=
  c.isAlphanum || c == '_' || c == '-' || c == '.'

/-- Matching loop of `wordPattern.FindAllString(content, -1)` for the pattern
`[a-zA-Z0-9_\-\.]+`: the successive leftmost, greedy, non-overlapping matches.
`cur` is the match being extended (`none` when no match is open). -/
def findAllLoop : List Char → Option (List Char) → List String
  | [], none => []
  | [], some cur => [String.mk cur]
  | c :: cs, none =>
      if isWordChar c then findAllLoop cs (some [c]) else findAllLoop cs none
  | c :: cs, some cur =>
      if isWordChar c then findAllLoop cs (some (cur ++ [c]))
      else String.mk cur :: findAllLoop cs none

/-- Go `config.wordPattern.FindAllString(content, -1)`. -/
def findAllString (content : String) : List String :=
  findAllLoop content.data none

/-- Loop of `dotSplitRegex.Split(word, -1)` for the pattern `\.`: the pieces
between successive dots, empty pieces included, then the rest of the string. -/
def dotSplitLoop : List Char → List Char → List String
  | [], cur => [String.mk cur]
  | c :: cs, cur =>
      if c = '.' then String.mk cur :: dotSplitLoop cs [] else dotSplitLoop cs (cur ++ [c])

/-- Go `config.dotSplitRegex.Split(word, -1)`. -/
def dotSplit (word : String) : List String :=
  dotSplitLoop word.data []

/-! ## The program -/

/-- Keys of the `blacklist` map (every key is mapped to `true`). -/
def blacklist : List String := [
  "await", "break", "case", "catch", "class",
  "const", "continue", "debugger", "default", "delete",
  "do", "else", "enum", "export", "extends",
  "false", "finally", "for", "function", "if",
  "implements", "import", "in", "instanceof", "interface",
  "let", "new", "null", "package", "private",
  "protected", "public", "return", "super", "switch",
  "static", "this", "throw", "try", "true",
  "typeof", "var", "void", "while", "with",
  "abstract", "boolean", "byte", "char", "double",
  "final", "float", "goto", "int", "long",
  "native", "short", "synchronized", "throws", "transient",
  "volatile",
  "alert", "frames", "outerheight", "all", "framerate",
  "outerwidth", "anchor", "packages",
  "anchors", "getclass", "pagexoffset", "area",
  "hasownproperty", "pageyoffset", "array", "hidden",
  "parent", "assign", "history", "parsefloat", "blur",
  "image", "parseint", "button", "images", "password",
  "checkbox", "infinity", "pkcs11", "clearinterval",
  "isfinite", "plugin", "cleartimeout", "isnan",
  "prompt", "clientinformation", "isprototypeof",
  "propertyisenum", "close", "java", "prototype",
  "closed", "javaarray", "radio", "confirm", "javaclass",
  "reset", "constructor", "javaobject", "screenx",
  "crypto", "javapackage", "screeny", "date",
  "innerheight", "scroll", "decodeuri", "innerwidth",
  "secure", "decodeuricomponent", "layer", "select",
  "defaultstatus", "layers", "self", "document",
  "length", "setinterval", "element", "link",
  "settimeout", "elements", "location", "status",
  "embed", "math", "string", "embeds", "mimetypes",
  "submit", "encodeuri", "name", "taint",
  "encodeuricomponent", "nan", "text", "escape",
  "navigate", "textarea", "eval", "navigator", "top",
  "event", "number", "tostring", "fileupload", "object",
  "undefined", "focus", "offscreenbuffering", "unescape",
  "form", "open", "untaint", "forms", "opener",
  "valueof", "frame", "option", "window", "yield"]

/-- The test `blacklist[strings.ToLower(w)]` made by both extractors. -/
def isReserved (U : UnicodeTables) (w : String) : Bool :=
  blacklist.contains (toLower U w)

/-- Body of the `for _, word := range matches` loop of `extractWords`, acting
on the key list of `uniqueWords`. -/
def extractWordsStep (U : UnicodeTables) (uniqueWords : List String) (word : String) :
    List String :=
  if word.data.contains '.' then
    let parts := dotSplit word
    let w := parts.getLastD ""
    if w ≠ "" ∧ isReserved U w = false then mapInsert uniqueWords w else uniqueWords
  else if word.utf8ByteSize = 1 then
    if (97 ≤ byteAt0 word ∧ byteAt0 word ≤ 122) ∨ (65 ≤ byteAt0 word ∧ byteAt0 word ≤ 90) then
      if isReserved U word = false then mapInsert uniqueWords word else uniqueWords
    else uniqueWords
  else
    if isReserved U word = false then mapInsert uniqueWords word else uniqueWords

/-- Keys of `uniqueWords` when the loop of `extractWords` ends, in insertion order. -/
def extractWordsKeys (U : UnicodeTables) (content : String) : List String :=
  (findAllString content).foldl (extractWordsStep U) []

/-- Go `extractWords(content, config)` with the two patterns compiled in `main`. -/
def extractWords (U : UnicodeTables) (it : MapIter) (content : String) : List String :=
  it.order (extractWordsKeys U content)

/-- Loop of `splitCamelCase`: `i` is the byte offset of the next rune and
`current` the content of the builder; a flushed builder is emitted. -/
def splitCamelCaseLoop (U : UnicodeTables) : List Char → Nat → List Char → List String
  | [], _, current => if current ≠ [] then [String.mk current] else []
  | r :: rs, i, current =>
      if 0 < i ∧ unicodeIsUpper U r = true then
        if current ≠ [] then
          String.mk current :: splitCamelCaseLoop U rs (i + r.utf8Size) [r]
        else splitCamelCaseLoop U rs (i + r.utf8Size) (current ++ [r])
      else splitCamelCaseLoop U rs (i + r.utf8Size) (current ++ [r])

/-- Go `splitCamelCase(s)`. -/
def splitCamelCase (U : UnicodeTables) (s : String) : List String :=
  splitCamelCaseLoop U s.data 0 []

/-- Inner loop `for _, camelPart := range camelParts` of `extractURLPathWords`. -/
def addCamelParts (U : UnicodeTables) (words : List String) (camelParts : List String) :
    List String :=
  camelParts.foldl
    (fun ws camelPart =>
      if camelPart ≠ "" ∧ isReserved U camelPart = false then mapInsert ws camelPart else ws)
    words

/-- Body of the loops `for _, part := range pathParts` and
`for _, part := range queryParts` (the two bodies are the same text). -/
def addPart (U : UnicodeTables) (words : List String) (part : String) : List String :=
  if part ≠ "" ∧ isReserved U part = false then
    addCamelParts U (mapInsert words part) (splitCamelCase U part)
  else words

/-- Delimiters of the path: `/`, `-`, `_`, `.`, `=`. -/
def isPathDelim (r : Char) : Bool :=
  r == '/' || r == '-' || r == '_' || r == '.' || r == '='

/-- Delimiters of the query: `&`, `=`, `;`. -/
def isQueryDelim (r : Char) : Bool :=
  r == '&' || r == '=' || r == ';'

/-- Keys of `words` after both loops of `extractURLPathWords`, for the path and
the query as they stand after the decoding step. -/
def urlWordKeys (U : UnicodeTables) (path query : String) : List String :=
  (fieldsFunc isQueryDelim query).foldl (addPart U)
    ((fieldsFunc isPathDelim path).foldl (addPart U) [])

/-- Lines printed by `extractURLPathWords` from the map construction on, for
the path and the query as they stand after the decoding step. -/
def extractURLPathWordsFrom (U : UnicodeTables) (it : MapIter) (path query : String) :
    List String :=
  it.order (urlWordKeys U path query)

/-- The functions of Go's `net/url` used by `extractURLPathWords`: `parse`
gives the `Path` and `RawQuery` of the parsed URL, `none` standing for an
error of the library function. -/
structure URLLib where
  parse : String → Option (String × String)
  pathUnescape : String → Option String
  queryUnescape : String → Option String

/-- Go `extractURLPathWords(urlStr)`: the lines it prints on standard output. -/
def extractURLPathWords (L : URLLib) (U : UnicodeTables) (it : MapIter) (urlStr : String) :
    List String :=
  match L.parse urlStr with
  | none => []
  | some (rawPath, rawQuery) =>
      let path := match L.pathUnescape rawPath with
        | some decodedPath => decodedPath
        | none => rawPath
      let query := match L.queryUnescape rawQuery with
        | some decodedQuery => decodedQuery
        | none => rawQuery
      extractURLPathWordsFrom U it path query

/-- Go `printWords(words)`: the lines written on standard output, one per word. -/
def printWords (words : List String) : List String :=
  words

/-- Go `strings.Contains(s, substr)`: `substr` starts at some position of `s`. -/
def stringsContains (s substr : String) : Bool :=
  s.data.tails.any (fun t => substr.data.isPrefixOf t)

/-- What `config.httpClient.Get(url)` and the reading of the response body
come to: the request fails, or a response arrives with a status code and a
body that is read or fails to be read. -/
inductive GetResult where
  | failed (err : String)
  | response (statusCode : Nat) (body : Except String String)

/-- Go `Config`: the two mode flags and the HTTP client, the network being a
function from the requested URL to the result.  The fields `wordPattern` and
`dotSplitRegex` always hold the two patterns compiled in `main`, which
`extractWords` has built in. -/
structure Config where
  jsFlag : Bool
  urlFlag : Bool
  httpClient : String → GetResult

/-- Go `fetchURL(url, config)`: the body of the response, or an error. -/
def fetchURL (url : String) (config : Config) : Except String String :=
  match config.httpClient url with
  | GetResult.failed err => Except.error err
  | GetResult.response statusCode body =>
      if statusCode ≠ 200 then Except.error ("HTTP error: " ++ toString statusCode)
      else
        match body with
        | Except.error err => Except.error err
        | Except.ok b => Except.ok b

/-- The messages the program writes on standard error. -/
inductive Diagnostic where
  | parseError (urlStr : String)
  | badURL (urlStr : String)
  | fetchError (urlStr : String) (err : String)
  | noMode
  deriving DecidableEq

/-- Effects of one call of `processURL`: the URLs requested from the network,
the lines written on standard output, the messages written on standard error. -/
structure Outcome where
  requests : List String
  stdout : List String
  stderr : List Diagnostic
  deriving DecidableEq

/-- Go `processURL(urlStr, config)`. -/
def processURL (L : URLLib) (U : UnicodeTables) (it : MapIter) (urlStr : String)
    (config : Config) : Outcome :=
  if config.urlFlag then
    Outcome.mk [] (extractURLPathWords L U it urlStr)
      (match L.parse urlStr with
        | none => [Diagnostic.parseError urlStr]
        | some _ => [])
  else if config.jsFlag then
    if (!stringsContains urlStr "://" || !stringsContains urlStr ".js") = true then
      Outcome.mk [] [] [Diagnostic.badURL urlStr]
    else
      match fetchURL urlStr config with
      | Except.error err => Outcome.mk [urlStr] [] [Diagnostic.fetchError urlStr err]
      | Except.ok content => Outcome.mk [urlStr] (printWords (extractWords U it content)) []
  else Outcome.mk [] [] [Diagnostic.noMode]

/-! ## Specification-side notions -/

/-- A concrete choice of the Unicode tables (nothing above ASCII is upper case
and nothing is changed by lowering), used to evaluate the program on examples. -/
def asciiTables : UnicodeTables := ⟨fun _ => false, fun c => c⟩

/-- A URL library that parses every input as the example URL, and decodes nothing. -/
def exampleLib : URLLib :=
  ⟨fun _ => some ("/api/user-profile", "sortBy=name"), fun s => some s, fun _ => none⟩

/-- The string `w` is what stands in `t` after the last dot of `t`. -/
def IsAfterLastDot (t w : String) : Prop :=
  ∃ pre : List Char, t.data = pre ++ '.' :: w.data ∧ '.' ∉ w.data

/-- The string consists of exactly one ASCII letter. -/
def IsAsciiLetter (w : String) : Prop :=
  ∃ c : Char, w.data = [c] ∧ c.isAlpha = true

/-- Two strings differ at most in the case of ASCII letters. -/
def AsciiCaseVariant (w v : String) : Prop :=
  w.data.map Char.toLower = v.data.map Char.toLower

/-- The content is one raw token: non-empty, all of it in the token class. -/
def IsRawToken (content : String) : Prop :=
  content.data ≠ [] ∧ ∀ c ∈ content.data, isWordChar c = true

/-- The words the loop body of `extractWords` derives from one raw token
(none or one), as a list. -/
def tokenWords (U : UnicodeTables) (word : String) : List String :=
  extractWordsStep U [] word

/-- The words the loop body of `extractURLPathWords` derives from one segment:
the segment and its camel-case parts, when the segment passes the filter. -/
def partWords (U : UnicodeTables) (part : String) : List String :=
  if part ≠ "" ∧ isReserved U part = false then
    part :: (splitCamelCase U part).filter
      (fun camelPart => decide (camelPart ≠ "" ∧ isReserved U camelPart = false))
  else []

/-- A network on which every request is answered with status 200 and the
script text `var foo.bar`. -/
def exampleConfig (jsFlag urlFlag : Bool) : Config :=
  ⟨jsFlag, urlFlag, fun _ => GetResult.response 200 (Except.ok "var foo.bar")⟩

/-- A URL library whose decoding of the path fails and whose decoding of the
query turns it into `b c`. -/
def decodingLib : URLLib :=
  ⟨fun _ => some ("/a%zz", "b+c"), fun _ => none, fun _ => some "b c"⟩

/-- The list `t` is a field of `l` for the delimiters `f`: a non-empty run of
consecutive characters of `l`, none of them a delimiter, that cannot be
extended (what precedes it ends with a delimiter or is empty, what follows it
begins with a delimiter or is empty). -/
def IsField (f : Char → Bool) (l t : List Char) : Prop :=
  ∃ pre post : List Char, l = pre ++ t ++ post ∧ t ≠ [] ∧ (∀ c ∈ t, f c = false) ∧
    (∀ c, pre.getLast? = some c → f c = true) ∧ (∀ c, post.head? = some c → f c = true)

/-- The string `t` is a maximal run of characters of the class
`[A-Za-z0-9_\-.]` in the content. -/
def IsMaximalRun (content t : String) : Prop :=
  IsField (fun c => !isWordChar c) content.data t.data

/-! ## Maps as key lists -/

theorem mem_mapInsert (m : List String) (k x : String) :
    x ∈ mapInsert m k ↔ x ∈ m ∨ x = k := by
  unfold mapInsert
  by_cases h : k ∈ m
  · rw [if_pos h]
    constructor
    · intro hx; exact Or.inl hx
    · rintro (hx | hx)
      · exact hx
      · rw [hx]; exact h
  · rw [if_neg h]
    simp

theorem nodup_mapInsert (m : List String) (k : String) (hm : m.Nodup) :
    (mapInsert m k).Nodup := by
  unfold mapInsert
  by_cases h : k ∈ m
  · rw [if_pos h]; exact hm
  · rw [if_neg h]
    rw [List.nodup_append]
    refine ⟨hm, List.nodup_singleton k, ?_⟩
    intro a ha hb
    rw [List.mem_singleton] at hb
    exact h (hb ▸ ha)

theorem mem_foldl_mapInsert (ks : List String) :
    ∀ (m : List String) (x : String), x ∈ ks.foldl mapInsert m ↔ x ∈ m ∨ x ∈ ks := by
  induction ks with
  | nil => intro m x; simp
  | cons k ks ih =>
      intro m x
      rw [List.foldl_cons, ih, mem_mapInsert, List.mem_cons]
      tauto

theorem nodup_foldl_mapInsert (ks : List String) :
    ∀ m : List String, m.Nodup → (ks.foldl mapInsert m).Nodup := by
  induction ks with
  | nil => intro m hm; exact hm
  | cons k ks ih =>
      intro m hm
      rw [List.foldl_cons]
      exact ih _ (nodup_mapInsert m k hm)

/-- A loop whose body inserts the keys `g a` sees exactly the keys of all bodies. -/
theorem mem_foldl_of_step {α : Type} (step : List String → α → List String)
    (g : α → List String) (hstep : ∀ m a, step m a = (g a).foldl mapInsert m)
    (l : List α) :
    ∀ (m : List String) (x : String),
      x ∈ l.foldl step m ↔ x ∈ m ∨ ∃ a ∈ l, x ∈ g a := by
  induction l with
  | nil => intro m x; simp
  | cons a l ih =>
      intro m x
      rw [List.foldl_cons, ih, hstep, mem_foldl_mapInsert]
      constructor
      · rintro ((h | h) | ⟨b, hb, h⟩)
        · exact Or.inl h
        · exact Or.inr ⟨a, List.mem_cons_self a l, h⟩
        · exact Or.inr ⟨b, List.mem_cons_of_mem a hb, h⟩
      · rintro (h | ⟨b, hb, h⟩)
        · exact Or.inl (Or.inl h)
        · rcases List.mem_cons.mp hb with rfl | hb
          · exact Or.inl (Or.inr h)
          · exact Or.inr ⟨b, hb, h⟩

theorem nodup_foldl_of_step {α : Type} (step : List String → α → List String)
    (g : α → List String) (hstep : ∀ m a, step m a = (g a).foldl mapInsert m)
    (l : List α) :
    ∀ m : List String, m.Nodup → (l.foldl step m).Nodup := by
  induction l with
  | nil => intro m hm; exact hm
  | cons a l ih =>
      intro m hm
      rw [List.foldl_cons]
      apply ih
      rw [hstep]
      exact nodup_foldl_mapInsert _ _ hm

/-! ## Characters -/

theorem isUpper_iff (c : Char) : c.isUpper = true ↔ 65 ≤ c.toNat ∧ c.toNat ≤ 90 := by
  simp only [Char.isUpper, Bool.and_eq_true, decide_eq_true_eq, ge_iff_le, Char.toNat]
  rfl

theorem isLower_iff (c : Char) : c.isLower = true ↔ 97 ≤ c.toNat ∧ c.toNat ≤ 122 := by
  simp only [Char.isLower, Bool.and_eq_true, decide_eq_true_eq, ge_iff_le, Char.toNat]
  rfl

theorem isDigit_iff (c : Char) : c.isDigit = true ↔ 48 ≤ c.toNat ∧ c.toNat ≤ 57 := by
  simp only [Char.isDigit, Bool.and_eq_true, decide_eq_true_eq, ge_iff_le, Char.toNat]
  rfl

theorem isAlpha_iff (c : Char) :
    c.isAlpha = true ↔ (65 ≤ c.toNat ∧ c.toNat ≤ 90) ∨ (97 ≤ c.toNat ∧ c.toNat ≤ 122) := by
  simp only [Char.isAlpha, Bool.or_eq_true, isUpper_iff, isLower_iff]

theorem char_eq_of_toNat_eq (c d : Char) (h : c.toNat = d.toNat) : c = d := by
  rw [← Char.ofNat_toNat c, ← Char.ofNat_toNat d, h]

theorem toNat_lt_of_isWordChar (c : Char) (h : isWordChar c = true) : c.toNat < 128 := by
  simp only [isWordChar, Char.isAlphanum, Bool.or_eq_true, beq_iff_eq] at h
  rcases h with ((h | h) | h) | h
  · rcases h with h | h
    · have := (isAlpha_iff c).mp h; omega
    · have := (isDigit_iff c).mp h; omega
  · rw [h]; decide
  · rw [h]; decide
  · rw [h]; decide

theorem utf8Size_of_lt (c : Char) (h : c.toNat < 128) : c.utf8Size = 1 := by
  have h1 : c.val ≤ 127 := by
    show c.val.toNat ≤ 127
    have : c.toNat = c.val.toNat := rfl
    omega
  simp [Char.utf8Size, h1]

theorem toNat_ofNat_small (n : Nat) (h : n < 0xd800) : (Char.ofNat n).toNat = n := by
  have hv : n.isValidChar := Or.inl h
  rw [Char.ofNat, dif_pos hv]
  rfl

theorem toNat_toLower_of_upper (c : Char) (h1 : 65 ≤ c.toNat) (h2 : c.toNat ≤ 90) :
    c.toLower.toNat = c.toNat + 32 := by
  have h : c.toLower = Char.ofNat (c.toNat + 32) := by
    simp [Char.toLower, h1, h2]
  rw [h, toNat_ofNat_small _ (by omega)]

theorem toLower_of_not_upper (c : Char) (h : ¬ (65 ≤ c.toNat ∧ c.toNat ≤ 90)) :
    c.toLower = c := by
  simp only [Char.toLower, ge_iff_le]
  rw [if_neg h]

/-- Byte length of a string of ASCII characters is its number of characters. -/
theorem utf8Len_of_ascii (l : List Char) (h : ∀ c ∈ l, c.toNat < 128) :
    String.utf8Len l = l.length := by
  induction l with
  | nil => rfl
  | cons c cs ih =>
      rw [String.utf8Len_cons, ih (fun d hd => h d (List.mem_cons_of_mem c hd)),
        utf8Size_of_lt c (h c (List.mem_cons_self c cs)), List.length_cons]

/-- A string of byte length one is a single character. -/
theorem data_of_utf8ByteSize_one (s : String) (h : s.utf8ByteSize = 1) :
    ∃ c : Char, s.data = [c] := by
  obtain ⟨l⟩ := s
  rw [String.utf8ByteSize_mk] at h
  cases l with
  | nil => simp at h
  | cons c cs =>
      rw [String.utf8Len_cons] at h
      have hc := c.utf8Size_pos
      have hz : String.utf8Len cs = 0 := by omega
      rw [String.utf8Len_eq_zero] at hz
      exact ⟨c, by rw [hz]⟩

theorem utf8FirstByte_letter (c : Char)
    (h : (97 ≤ utf8FirstByte c ∧ utf8FirstByte c ≤ 122) ∨
      (65 ≤ utf8FirstByte c ∧ utf8FirstByte c ≤ 90)) : c.isAlpha = true := by
  rw [isAlpha_iff]
  unfold utf8FirstByte at h
  split_ifs at h <;> omega

/-! ## The library loops -/

theorem findAllLoop_mem (cs : List Char) :
    ∀ cur : Option (List Char),
      (∀ l, cur = some l → l ≠ [] ∧ ∀ c ∈ l, isWordChar c = true) →
      ∀ t ∈ findAllLoop cs cur, t.data ≠ [] ∧ ∀ c ∈ t.data, isWordChar c = true := by
  induction cs with
  | nil =>
      intro cur hcur t ht
      cases cur with
      | none => simp [findAllLoop] at ht
      | some l =>
          simp only [findAllLoop, List.mem_singleton] at ht
          rw [ht]
          exact hcur l rfl
  | cons c cs ih =>
      intro cur hcur t ht
      cases cur with
      | none =>
          simp only [findAllLoop] at ht
          by_cases hc : isWordChar c = true
          · rw [if_pos hc] at ht
            refine ih (some [c]) ?_ t ht
            intro l hl
            cases hl
            exact ⟨by simp, by simpa using hc⟩
          · rw [if_neg hc] at ht
            exact ih none (by simp) t ht
      | some l =>
          simp only [findAllLoop] at ht
          by_cases hc : isWordChar c = true
          · rw [if_pos hc] at ht
            refine ih (some (l ++ [c])) ?_ t ht
            intro l2 hl2
            cases hl2
            refine ⟨by simp, ?_⟩
            intro d hd
            rcases List.mem_append.mp hd with hd | hd
            · exact (hcur l rfl).2 d hd
            · rw [List.mem_singleton.mp hd]; exact hc
          · rw [if_neg hc] at ht
            rcases List.mem_cons.mp ht with ht | ht
            · rw [ht]; exact hcur l rfl
            · exact ih none (by simp) t ht

/-- Every match of the word pattern is non-empty and lies in the token class. -/
theorem findAllString_mem (content t : String) (ht : t ∈ findAllString content) :
    t.data ≠ [] ∧ ∀ c ∈ t.data, isWordChar c = true :=
  findAllLoop_mem content.data none (by simp) t ht

theorem findAllLoop_all (cs : List Char) (h : ∀ c ∈ cs, isWordChar c = true) :
    ∀ cur : List Char, findAllLoop cs (some cur) = [String.mk (cur ++ cs)] := by
  induction cs with
  | nil => intro cur; simp [findAllLoop]
  | cons c cs ih =>
      intro cur
      simp only [findAllLoop]
      rw [if_pos (h c (List.mem_cons_self c cs)),
        ih (fun d hd => h d (List.mem_cons_of_mem c hd))]
      simp

/-- A content that is one raw token is matched as a whole. -/
theorem findAllString_rawToken (content : String) (h : IsRawToken content) :
    findAllString content = [content] := by
  obtain ⟨l⟩ := content
  obtain ⟨hne, hall⟩ := h
  cases l with
  | nil => exact absurd rfl hne
  | cons c cs =>
      simp only [findAllString, findAllLoop]
      rw [if_pos (hall c (List.mem_cons_self c cs)),
        findAllLoop_all cs (fun d hd => hall d (List.mem_cons_of_mem c hd))]
      simp

theorem fieldsFuncLoop_ne_empty (f : Char → Bool) (rs : List Char) :
    ∀ cur : Option (List Char), (∀ l, cur = some l → l ≠ []) →
      ∀ t ∈ fieldsFuncLoop f rs cur, t ≠ "" := by
  induction rs with
  | nil =>
      intro cur hcur t ht
      cases cur with
      | none => simp [fieldsFuncLoop] at ht
      | some l =>
          simp only [fieldsFuncLoop, List.mem_singleton] at ht
          rw [ht]
          intro h
          exact hcur l rfl (congrArg String.data h)
  | cons r rs ih =>
      intro cur hcur t ht
      cases cur with
      | none =>
          simp only [fieldsFuncLoop] at ht
          by_cases hr : f r = true
          · rw [if_pos hr] at ht; exact ih none (by simp) t ht
          · rw [if_neg hr] at ht
            exact ih (some [r]) (by intro l hl; cases hl; simp) t ht
      | some l =>
          simp only [fieldsFuncLoop] at ht
          by_cases hr : f r = true
          · rw [if_pos hr] at ht
            rcases List.mem_cons.mp ht with ht | ht
            · rw [ht]
              intro h
              exact hcur l rfl (congrArg String.data h)
            · exact ih none (by simp) t ht
          · rw [if_neg hr] at ht
            exact ih (some (l ++ [r])) (by intro l2 hl2; cases hl2; simp) t ht

/-- Every field returned by `fieldsFunc` is non-empty. -/
theorem fieldsFunc_ne_empty (f : Char → Bool) (s t : String) (ht : t ∈ fieldsFunc f s) :
    t ≠ "" :=
  fieldsFuncLoop_ne_empty f s.data none (by simp) t ht

theorem dotSplitLoop_no_dot (cs : List Char) (h : '.' ∉ cs) :
    ∀ cur : List Char, dotSplitLoop cs cur = [String.mk (cur ++ cs)] := by
  induction cs with
  | nil => intro cur; simp [dotSplitLoop]
  | cons c cs ih =>
      intro cur
      have hc : ¬ c = '.' := fun e => h (e ▸ List.mem_cons_self c cs)
      simp only [dotSplitLoop]
      rw [if_neg hc, ih (fun hd => h (List.mem_cons_of_mem c hd))]
      simp

/-- The last piece of the split is what stands after the last dot. -/
theorem dotSplitLoop_getLastD (pre w : List Char) (hw : '.' ∉ w) :
    ∀ (cur : List Char) (d : String),
      (dotSplitLoop (pre ++ '.' :: w) cur).getLastD d = String.mk w := by
  induction pre with
  | nil =>
      intro cur d
      simp only [List.nil_append, dotSplitLoop]
      rw [if_pos trivial, dotSplitLoop_no_dot w hw]
      simp
  | cons c pre ih =>
      intro cur d
      simp only [List.cons_append, dotSplitLoop]
      by_cases hc : c = '.'
      · rw [if_pos hc, List.getLastD_cons]
        exact ih [] _
      · rw [if_neg hc]
        exact ih _ d

theorem exists_last_dot (l : List Char) (h : '.' ∈ l) :
    ∃ pre w : List Char, l = pre ++ '.' :: w ∧ '.' ∉ w := by
  induction l with
  | nil => simp at h
  | cons c cs ih =>
      by_cases hcs : '.' ∈ cs
      · obtain ⟨pre, w, e, hw⟩ := ih hcs
        exact ⟨c :: pre, w, by rw [e]; rfl, hw⟩
      · rcases List.mem_cons.mp h with hc | hc
        · exact ⟨[], cs, by rw [← hc]; rfl, hcs⟩
        · exact absurd hc hcs

/-- A token with a dot has a part after its last dot, and the split ends in it. -/
theorem dotSplit_getLastD (t : String) (h : '.' ∈ t.data) :
    IsAfterLastDot t ((dotSplit t).getLastD "") := by
  obtain ⟨pre, w, e, hw⟩ := exists_last_dot t.data h
  have hlast : (dotSplit t).getLastD "" = String.mk w := by
    unfold dotSplit
    rw [e]
    exact dotSplitLoop_getLastD pre w hw [] ""
  rw [hlast]
  exact ⟨pre, e, hw⟩

/-- What stands after the last dot of a token is determined by the token. -/
theorem isAfterLastDot_unique (t w v : String) (hw : IsAfterLastDot t w)
    (hv : IsAfterLastDot t v) : w = v := by
  obtain ⟨p, e1, h1⟩ := hw
  obtain ⟨q, e2, h2⟩ := hv
  have e : p ++ '.' :: w.data = q ++ '.' :: v.data := by rw [← e1, ← e2]
  have h := dotSplitLoop_getLastD p w.data h1 [] ""
  rw [e, dotSplitLoop_getLastD q v.data h2 [] ""] at h
  exact (String.ext (congrArg String.data h)).symm

/-! ## The reserved-word test -/

theorem isReserved_iff (U : UnicodeTables) (w : String) :
    isReserved U w = true ↔ toLower U w ∈ blacklist := by
  simp [isReserved]

theorem isReserved_false_iff (U : UnicodeTables) (w : String) :
    isReserved U w = false ↔ toLower U w ∉ blacklist := by
  rw [← isReserved_iff]
  simp

/-- Lowering does nothing to a string of ASCII characters without capitals. -/
theorem toLower_eq_self (U : UnicodeTables) (s : String)
    (h : ∀ c ∈ s.data, c.toNat < 128 ∧ ¬ (65 ≤ c.toNat ∧ c.toNat ≤ 90)) :
    toLower U s = s := by
  obtain ⟨l⟩ := s
  unfold toLower
  congr 1
  show l.map (unicodeToLower U) = l
  have hl : ∀ c ∈ l, unicodeToLower U c = c := by
    intro c hc
    unfold unicodeToLower
    rw [if_pos (h c hc).1]
    exact toLower_of_not_upper c (h c hc).2
  calc l.map (unicodeToLower U) = l.map id := List.map_congr_left hl
    _ = l := List.map_id l

/-- ASCII case variants of one character are lowered to the same character. -/
theorem unicodeToLower_congr (U : UnicodeTables) (a b : Char) (h : a.toLower = b.toLower) :
    unicodeToLower U a = unicodeToLower U b := by
  by_cases ha : 65 ≤ a.toNat ∧ a.toNat ≤ 90
  · by_cases hb : 65 ≤ b.toNat ∧ b.toNat ≤ 90
    · unfold unicodeToLower
      rw [if_pos (by omega), if_pos (by omega), h]
    · have h1 := toNat_toLower_of_upper a ha.1 ha.2
      rw [h, toLower_of_not_upper b hb] at h1
      unfold unicodeToLower
      rw [if_pos (by omega), if_pos (by omega), h]
  · by_cases hb : 65 ≤ b.toNat ∧ b.toNat ≤ 90
    · have h1 := toNat_toLower_of_upper b hb.1 hb.2
      rw [← h, toLower_of_not_upper a ha] at h1
      unfold unicodeToLower
      rw [if_pos (by omega), if_pos (by omega), h]
    · rw [toLower_of_not_upper a ha, toLower_of_not_upper b hb] at h
      rw [h]

theorem map_unicodeToLower_congr (U : UnicodeTables) (l : List Char) :
    ∀ k : List Char, l.map Char.toLower = k.map Char.toLower →
      l.map (unicodeToLower U) = k.map (unicodeToLower U) := by
  induction l with
  | nil =>
      intro k h
      cases k with
      | nil => rfl
      | cons b k => simp at h
  | cons a l ih =>
      intro k h
      cases k with
      | nil => simp at h
      | cons b k =>
          simp only [List.map_cons, List.cons.injEq] at h ⊢
          exact ⟨unicodeToLower_congr U a b h.1, ih k h.2⟩

theorem toLower_congr (U : UnicodeTables) (w v : String) (h : AsciiCaseVariant w v) :
    toLower U w = toLower U v := by
  unfold toLower
  rw [map_unicodeToLower_congr U w.data v.data h]

/-! ## The loop of extractWords -/

theorem extractWordsStep_eq (U : UnicodeTables) (m : List String) (word : String) :
    extractWordsStep U m word = (tokenWords U word).foldl mapInsert m := by
  unfold tokenWords extractWordsStep
  dsimp only
  split_ifs <;> simp [mapInsert]

/-- The words derived from one raw token, case by case. -/
theorem mem_tokenWords (U : UnicodeTables) (t x : String) :
    x ∈ tokenWords U t ↔
      isReserved U x = false ∧
        (('.' ∈ t.data ∧ x = (dotSplit t).getLastD "" ∧ x ≠ "") ∨
          ('.' ∉ t.data ∧ x = t ∧
            (t.utf8ByteSize = 1 →
              (97 ≤ byteAt0 t ∧ byteAt0 t ≤ 122) ∨ (65 ≤ byteAt0 t ∧ byteAt0 t ≤ 90)))) := by
  unfold tokenWords extractWordsStep
  by_cases hdot : '.' ∈ t.data
  · have hc : t.data.contains '.' = true := by simpa using hdot
    rw [if_pos hc]
    simp only
    by_cases hw : (dotSplit t).getLastD "" ≠ "" ∧ isReserved U ((dotSplit t).getLastD "") = false
    · rw [if_pos hw]
      simp only [mapInsert, List.not_mem_nil, if_false, List.nil_append, List.mem_singleton]
      constructor
      · intro hx
        rw [hx]
        exact ⟨hw.2, Or.inl ⟨hdot, rfl, hw.1⟩⟩
      · rintro ⟨_, (⟨_, hx, _⟩ | ⟨hnd, _⟩)⟩
        · exact hx
        · exact absurd hdot hnd
    · rw [if_neg hw]
      simp only [List.not_mem_nil, false_iff]
      rintro ⟨hr, (⟨_, hx, hne⟩ | ⟨hnd, _⟩)⟩
      · exact hw ⟨hx ▸ hne, hx ▸ hr⟩
      · exact absurd hdot hnd
  · have hc : ¬ t.data.contains '.' = true := by simpa using hdot
    rw [if_neg hc]
    by_cases h1 : t.utf8ByteSize = 1
    · rw [if_pos h1]
      by_cases hb : (97 ≤ byteAt0 t ∧ byteAt0 t ≤ 122) ∨ (65 ≤ byteAt0 t ∧ byteAt0 t ≤ 90)
      · rw [if_pos hb]
        by_cases hr : isReserved U t = false
        · rw [if_pos hr]
          simp only [mapInsert, List.not_mem_nil, if_false, List.nil_append, List.mem_singleton]
          constructor
          · intro hx; rw [hx]; exact ⟨hr, Or.inr ⟨hdot, rfl, fun _ => hb⟩⟩
          · rintro ⟨_, (⟨hd, _⟩ | ⟨_, hx, _⟩)⟩
            · exact absurd hd hdot
            · exact hx
        · rw [if_neg hr]
          simp only [List.not_mem_nil, false_iff]
          rintro ⟨hr2, (⟨hd, _⟩ | ⟨_, hx, _⟩)⟩
          · exact absurd hd hdot
          · exact hr (hx ▸ hr2)
      · rw [if_neg hb]
        simp only [List.not_mem_nil, false_iff]
        rintro ⟨_, (⟨hd, _⟩ | ⟨_, _, hl⟩)⟩
        · exact absurd hd hdot
        · exact hb (hl h1)
    · rw [if_neg h1]
      by_cases hr : isReserved U t = false
      · rw [if_pos hr]
        simp only [mapInsert, List.not_mem_nil, if_false, List.nil_append, List.mem_singleton]
        constructor
        · intro hx; rw [hx]; exact ⟨hr, Or.inr ⟨hdot, rfl, fun h => absurd h h1⟩⟩
        · rintro ⟨_, (⟨hd, _⟩ | ⟨_, hx, _⟩)⟩
          · exact absurd hd hdot
          · exact hx
      · rw [if_neg hr]
        simp only [List.not_mem_nil, false_iff]
        rintro ⟨hr2, (⟨hd, _⟩ | ⟨_, hx, _⟩)⟩
        · exact absurd hd hdot
        · exact hr (hx ▸ hr2)

theorem mem_extractWordsKeys (U : UnicodeTables) (content x : String) :
    x ∈ extractWordsKeys U content ↔ ∃ t ∈ findAllString content, x ∈ tokenWords U t := by
  unfold extractWordsKeys
  rw [mem_foldl_of_step (extractWordsStep U) (tokenWords U) (extractWordsStep_eq U)]
  simp

theorem mem_extractWords (U : UnicodeTables) (it : MapIter) (content x : String) :
    x ∈ extractWords U it content ↔ ∃ t ∈ findAllString content, x ∈ tokenWords U t := by
  unfold extractWords
  rw [(it.perm _).mem_iff, mem_extractWordsKeys]

theorem nodup_extractWordsKeys (U : UnicodeTables) (content : String) :
    (extractWordsKeys U content).Nodup :=
  nodup_foldl_of_step (extractWordsStep U) (tokenWords U) (extractWordsStep_eq U) _ []
    List.nodup_nil

/-- A token whose last character is a dot has nothing after its last dot. -/
theorem getLastD_of_final_dot (t : String) (h : t.data.getLast? = some '.') :
    '.' ∈ t.data ∧ (dotSplit t).getLastD "" = "" := by
  obtain ⟨pre, e⟩ := List.getLast?_eq_some_iff.mp h
  refine ⟨by rw [e]; simp, ?_⟩
  unfold dotSplit
  rw [e]
  exact dotSplitLoop_getLastD pre [] (by simp) [] ""

/-! ## The loops of extractURLPathWords -/

theorem addCamelParts_eq (U : UnicodeTables) (camelParts : List String) :
    ∀ words : List String,
      addCamelParts U words camelParts =
        (camelParts.filter
          (fun camelPart => decide (camelPart ≠ "" ∧ isReserved U camelPart = false))).foldl
          mapInsert words := by
  induction camelParts with
  | nil => intro words; rfl
  | cons c cs ih =>
      intro words
      have ih2 := fun ws => ih ws
      unfold addCamelParts at ih2 ⊢
      rw [List.foldl_cons, ih2]
      by_cases hc : c ≠ "" ∧ isReserved U c = false
      · rw [if_pos hc, List.filter_cons_of_pos (by simpa using hc), List.foldl_cons]
      · rw [if_neg hc, List.filter_cons_of_neg (by simpa using hc)]

theorem addPart_eq (U : UnicodeTables) (words : List String) (part : String) :
    addPart U words part = (partWords U part).foldl mapInsert words := by
  unfold addPart partWords
  by_cases hp : part ≠ "" ∧ isReserved U part = false
  · rw [if_pos hp, if_pos hp, addCamelParts_eq, List.foldl_cons]
  · rw [if_neg hp, if_neg hp]; rfl

theorem mem_partWords (U : UnicodeTables) (p x : String) :
    x ∈ partWords U p ↔
      (p ≠ "" ∧ isReserved U p = false) ∧
        (x = p ∨ (x ∈ splitCamelCase U p ∧ x ≠ "" ∧ isReserved U x = false)) := by
  unfold partWords
  by_cases hp : p ≠ "" ∧ isReserved U p = false
  · rw [if_pos hp]
    simp only [List.mem_cons, List.mem_filter, decide_eq_true_eq]
    tauto
  · rw [if_neg hp]
    simp only [List.not_mem_nil, false_iff]
    tauto

theorem mem_urlWordKeys (U : UnicodeTables) (path query x : String) :
    x ∈ urlWordKeys U path query ↔
      ∃ p, (p ∈ fieldsFunc isPathDelim path ∨ p ∈ fieldsFunc isQueryDelim query) ∧
        x ∈ partWords U p := by
  unfold urlWordKeys
  rw [mem_foldl_of_step (addPart U) (partWords U) (addPart_eq U),
    mem_foldl_of_step (addPart U) (partWords U) (addPart_eq U)]
  simp only [List.not_mem_nil, false_or]
  constructor
  · rintro (⟨p, hp, hx⟩ | ⟨p, hp, hx⟩)
    · exact ⟨p, Or.inl hp, hx⟩
    · exact ⟨p, Or.inr hp, hx⟩
  · rintro ⟨p, (hp | hp), hx⟩
    · exact Or.inl ⟨p, hp, hx⟩
    · exact Or.inr ⟨p, hp, hx⟩

theorem nodup_urlWordKeys (U : UnicodeTables) (path query : String) :
    (urlWordKeys U path query).Nodup := by
  unfold urlWordKeys
  apply nodup_foldl_of_step (addPart U) (partWords U) (addPart_eq U)
  exact nodup_foldl_of_step (addPart U) (partWords U) (addPart_eq U) _ [] List.nodup_nil

/-! ## Evaluations on the examples of the specification -/

theorem blacklist_lowercase :
    ∀ k ∈ blacklist, ∀ c ∈ k.data, c.toNat < 128 ∧ ¬ (65 ≤ c.toNat ∧ c.toNat ≤ 90) := by
  decide!

theorem urlWordKeys_example (U : UnicodeTables) :
    urlWordKeys U "/api/user-profile" "sortBy=name" =
      ["api", "user", "profile", "sortBy", "sort", "By"] := by
  have fp : fieldsFunc isPathDelim "/api/user-profile" = ["api", "user", "profile"] := by
    decide
  have fq : fieldsFunc isQueryDelim "sortBy=name" = ["sortBy", "name"] := by decide
  have r1 : isReserved U "api" = false := rfl
  have r2 : isReserved U "user" = false := rfl
  have r3 : isReserved U "profile" = false := rfl
  have r4 : isReserved U "sortBy" = false := rfl
  have r5 : isReserved U "sort" = false := rfl
  have r6 : isReserved U "By" = false := rfl
  have r7 : isReserved U "name" = true := rfl
  have c1 : splitCamelCase U "api" = ["api"] := rfl
  have c2 : splitCamelCase U "user" = ["user"] := rfl
  have c3 : splitCamelCase U "profile" = ["profile"] := rfl
  have c4 : splitCamelCase U "sortBy" = ["sort", "By"] := rfl
  simp [urlWordKeys, fp, fq, addPart, addCamelParts, mapInsert, r1, r2, r3, r4, r5, r6, r7,
    c1, c2, c3, c4]

theorem extractURLPathWords_of_parse (L : URLLib) (U : UnicodeTables) (it : MapIter)
    (urlStr p q : String) (hparse : L.parse urlStr = some (p, q))
    (hp : L.pathUnescape p = some p ∨ L.pathUnescape p = none)
    (hq : L.queryUnescape q = some q ∨ L.queryUnescape q = none) :
    extractURLPathWords L U it urlStr = extractURLPathWordsFrom U it p q := by
  unfold extractURLPathWords
  rw [hparse]
  rcases hp with hp | hp <;> rcases hq with hq | hq <;> simp [hp, hq]

/-! ## The claims -/

/-- C1: for every content, every token in the output of `extractWords` is a
non-empty string whose lowercased form is not a key of `blacklist`. -/
theorem extractWords_nonempty_not_reserved (U : UnicodeTables) (it : MapIter)
    (content w : String) (hw : w ∈ extractWords U it content) :
    w ≠ "" ∧ toLower U w ∉ blacklist := by
  obtain ⟨t, ht, hx⟩ := (mem_extractWords U it content w).mp hw
  obtain ⟨hr, hcase⟩ := (mem_tokenWords U t w).mp hx
  refine ⟨?_, (isReserved_false_iff U w).mp hr⟩
  rcases hcase with ⟨_, _, hne⟩ | ⟨_, hwt, _⟩
  · exact hne
  · rw [hwt]
    intro he
    exact (findAllString_mem content t ht).1 (congrArg String.data he)

/-- C1, on an instance: the word `bar` of the content `var foo.bar`. -/
theorem extractWords_nonempty_not_reserved_witness :
    "bar" ∈ extractWords asciiTables MapIter.insertion "var foo.bar" ∧
      ("bar" ≠ "" ∧ toLower asciiTables "bar" ∉ blacklist) :=
  ⟨by decide,
    extractWords_nonempty_not_reserved asciiTables MapIter.insertion "var foo.bar" "bar"
      (by decide)⟩

/-- C2, as stated, fails: `splitCamelCase` of `getUserID` is not the list
`get`, `User`, `ID`. -/
theorem splitCamelCase_getUserID_counterexample :
    splitCamelCase asciiTables "getUserID" ≠ ["get", "User", "ID"] := by
  decide

/-- C2, amended: `splitCamelCase` of `getUserID` is exactly the list `get`,
`User`, `I`, `D` (a part starts at every capital after the first rune). -/
theorem splitCamelCase_getUserID (U : UnicodeTables) :
    splitCamelCase U "getUserID" = ["get", "User", "I", "D"] := by
  rfl

/-- C3, as stated, fails: `splitCamelCase` of `getUserID2` is not the list
`get`, `User`, `ID`, `2`. -/
theorem splitCamelCase_getUserID2_counterexample :
    splitCamelCase asciiTables "getUserID2" ≠ ["get", "User", "ID", "2"] := by
  decide

/-- C3, amended: `splitCamelCase` of `getUserID2` is exactly the list `get`,
`User`, `I`, `D2` (a capital starts a part, a digit does not). -/
theorem splitCamelCase_getUserID2 (U : UnicodeTables) :
    splitCamelCase U "getUserID2" = ["get", "User", "I", "D2"] := by
  rfl

/-- C4: for the path `/api/user-profile` and the query `sortBy=name`, the words
printed in URL mode are exactly `api`, `user`, `profile`, `sortBy`, `sort`, `By`
(in some order); `name` is a query segment, is reserved, and is not printed.
The same holds for `extractURLPathWords` on a URL that the library parses into
this path and query and whose decoding leaves them as they are or fails. -/
theorem extractURLPathWords_example (U : UnicodeTables) (it : MapIter) :
    (extractURLPathWordsFrom U it "/api/user-profile" "sortBy=name").Perm
        ["api", "user", "profile", "sortBy", "sort", "By"] ∧
      "name" ∈ fieldsFunc isQueryDelim "sortBy=name" ∧
      "name" ∈ blacklist ∧
      isReserved U "name" = true ∧
      "name" ∉ extractURLPathWordsFrom U it "/api/user-profile" "sortBy=name" ∧
      ∀ L : URLLib,
        L.parse "https://example.com/api/user-profile?sortBy=name" =
            some ("/api/user-profile", "sortBy=name") →
        (L.pathUnescape "/api/user-profile" = some "/api/user-profile" ∨
            L.pathUnescape "/api/user-profile" = none) →
        (L.queryUnescape "sortBy=name" = some "sortBy=name" ∨
            L.queryUnescape "sortBy=name" = none) →
        (extractURLPathWords L U it "https://example.com/api/user-profile?sortBy=name").Perm
          ["api", "user", "profile", "sortBy", "sort", "By"] := by
  have hperm : (extractURLPathWordsFrom U it "/api/user-profile" "sortBy=name").Perm
      ["api", "user", "profile", "sortBy", "sort", "By"] := by
    unfold extractURLPathWordsFrom
    rw [urlWordKeys_example U]
    exact it.perm _
  refine ⟨hperm, by decide, by decide, rfl, ?_, ?_⟩
  · intro h
    have h2 := hperm.mem_iff.mp h
    revert h2
    decide
  · intro L hparse hp hq
    rw [extractURLPathWords_of_parse L U it _ _ _ hparse hp hq]
    exact hperm

/-- C4, on an instance: a library that parses the URL into the path and the
query of the example, leaves the path as it is and fails to decode the query. -/
theorem extractURLPathWords_example_witness :
    (extractURLPathWords exampleLib asciiTables MapIter.insertion
        "https://example.com/api/user-profile?sortBy=name").Perm
      ["api", "user", "profile", "sortBy", "sort", "By"] := by
  obtain ⟨_, _, _, _, _, h⟩ := extractURLPathWords_example asciiTables MapIter.insertion
  have hparse : exampleLib.parse "https://example.com/api/user-profile?sortBy=name" =
      some ("/api/user-profile", "sortBy=name") := rfl
  have hp : exampleLib.pathUnescape "/api/user-profile" = some "/api/user-profile" := rfl
  have hq : exampleLib.queryUnescape "sortBy=name" = none := rfl
  exact h exampleLib hparse (Or.inl hp) (Or.inr hq)

/-- C5, as stated, fails: `getClass` is a segment of the path `/getClass`, and
`get` is a non-empty, non-reserved camel-case part of it, yet `get` is not in
the result (the segment itself is reserved, so its parts are never looked at). -/
theorem camelParts_of_reserved_segment_counterexample :
    "getClass" ∈ fieldsFunc isPathDelim "/getClass" ∧
      "get" ∈ splitCamelCase asciiTables "getClass" ∧
      "get" ≠ "" ∧
      isReserved asciiTables "get" = false ∧
      "get" ∉ extractURLPathWordsFrom asciiTables MapIter.insertion "/getClass" "" := by
  decide

/-- C5, amended: for every segment of the decoded path (split on `/`, `-`, `_`,
`.`, `=`) or of the decoded query (split on `&`, `=`, `;`) that is itself not
reserved, each part returned by `splitCamelCase` on it that is non-empty and
not reserved is in the result. -/
theorem camelParts_in_result (U : UnicodeTables) (it : MapIter) (path query p c : String)
    (hp : p ∈ fieldsFunc isPathDelim path ∨ p ∈ fieldsFunc isQueryDelim query)
    (hres : isReserved U p = false)
    (hc : c ∈ splitCamelCase U p) (hne : c ≠ "") (hcr : isReserved U c = false) :
    c ∈ extractURLPathWordsFrom U it path query := by
  unfold extractURLPathWordsFrom
  rw [(it.perm _).mem_iff, mem_urlWordKeys]
  refine ⟨p, hp, (mem_partWords U p c).mpr ⟨⟨?_, hres⟩, Or.inr ⟨hc, hne, hcr⟩⟩⟩
  rcases hp with hp | hp
  · exact fieldsFunc_ne_empty _ _ _ hp
  · exact fieldsFunc_ne_empty _ _ _ hp

/-- C5 amended, on an instance: the part `sort` of the query segment `sortBy`. -/
theorem camelParts_in_result_witness :
    "sort" ∈ extractURLPathWordsFrom asciiTables MapIter.insertion
      "/api/user-profile" "sortBy=name" :=
  camelParts_in_result asciiTables MapIter.insertion "/api/user-profile" "sortBy=name"
    "sortBy" "sort" (Or.inr (by decide)) (by decide) (by decide) (by decide) (by decide)

/-- C6, as stated, fails: on the content `a.5` the output contains the
one-character string `5`, which is not an ASCII letter. -/
theorem extractWords_single_char_counterexample :
    "5" ∈ extractWords asciiTables MapIter.insertion "a.5" ∧
      String.length "5" = 1 ∧ ¬ IsAsciiLetter "5" := by
  refine ⟨by decide, by decide, ?_⟩
  rintro ⟨c, hc, hl⟩
  have hc2 : c = '5' := by
    have h : ['5'] = [c] := hc
    simp at h
    exact h.symm
  rw [hc2] at hl
  revert hl
  decide

/-- C6, amended: a one-character word of the output that is not an ASCII
letter is what stands after the last dot of a raw token containing a dot; a raw
token that is one character long and not a letter contributes nothing (the
contents `-` and `5` give the empty output); and a one-character word of the
output is never reserved. -/
theorem extractWords_single_char (U : UnicodeTables) (it : MapIter) :
    (∀ content w : String, w ∈ extractWords U it content → w.length = 1 →
        isReserved U w = false ∧
          (IsAsciiLetter w ∨
            ∃ t ∈ findAllString content, '.' ∈ t.data ∧ IsAfterLastDot t w)) ∧
      (∀ (m : List String) (t : String), IsRawToken t → t.length = 1 → ¬ IsAsciiLetter t →
        extractWordsStep U m t = m) ∧
      extractWords U it "-" = [] ∧ extractWords U it "5" = [] := by
  refine ⟨?_, ?_, ?_, ?_⟩
  · intro content w hw hlen
    obtain ⟨t, ht, hx⟩ := (mem_extractWords U it content w).mp hw
    obtain ⟨hr, hcase⟩ := (mem_tokenWords U t w).mp hx
    refine ⟨hr, ?_⟩
    rcases hcase with ⟨hdot, hwt, _⟩ | ⟨_, hwt, hbyte⟩
    · refine Or.inr ⟨t, ht, hdot, ?_⟩
      rw [hwt]
      exact dotSplit_getLastD t hdot
    · left
      rw [hwt] at hlen ⊢
      have hascii : ∀ c ∈ t.data, c.toNat < 128 := fun c hc =>
        toNat_lt_of_isWordChar c ((findAllString_mem content t ht).2 c hc)
      have hsize : t.utf8ByteSize = 1 := by
        have h1 : t.utf8ByteSize = String.utf8Len t.data := rfl
        have h2 : t.length = t.data.length := rfl
        rw [h1, utf8Len_of_ascii t.data hascii, ← h2, hlen]
      obtain ⟨c, hc⟩ := data_of_utf8ByteSize_one t hsize
      have hb := hbyte hsize
      unfold byteAt0 at hb
      rw [hc] at hb
      exact ⟨c, hc, utf8FirstByte_letter c hb⟩
  · intro m t htok hlen hnl
    rw [extractWordsStep_eq]
    have h2 : t.length = t.data.length := rfl
    rw [h2] at hlen
    obtain ⟨c, hc⟩ := List.length_eq_one.mp hlen
    have hnil : tokenWords U t = [] := by
      rw [List.eq_nil_iff_forall_not_mem]
      intro x hx
      obtain ⟨_, hcase⟩ := (mem_tokenWords U t x).mp hx
      rcases hcase with ⟨hd, hxe, hxne⟩ | ⟨_, _, hbyte⟩
      · have hlast : t.data.getLast? = some '.' := by
          rw [hc] at hd ⊢
          rw [List.mem_singleton] at hd
          rw [← hd]
          rfl
        rw [(getLastD_of_final_dot t hlast).2] at hxe
        exact hxne hxe
      · have hascii : ∀ d ∈ t.data, d.toNat < 128 := fun d hd =>
          toNat_lt_of_isWordChar d (htok.2 d hd)
        have hsize : t.utf8ByteSize = 1 := by
          have h1 : t.utf8ByteSize = String.utf8Len t.data := rfl
          rw [h1, utf8Len_of_ascii t.data hascii, hlen]
        have hb := hbyte hsize
        unfold byteAt0 at hb
        rw [hc] at hb
        exact hnl ⟨c, hc, utf8FirstByte_letter c hb⟩
    rw [hnil]
    rfl
  · have h : extractWordsKeys U "-" = [] := rfl
    unfold extractWords
    exact List.perm_nil.mp (h ▸ it.perm _)
  · have h : extractWordsKeys U "5" = [] := rfl
    unfold extractWords
    exact List.perm_nil.mp (h ▸ it.perm _)

/-- C6 amended, on an instance: the one-letter word `x` of the content `x = 5 - y`. -/
theorem extractWords_single_char_witness :
    "x" ∈ extractWords asciiTables MapIter.insertion "x = 5 - y" ∧
      String.length "x" = 1 ∧
      (isReserved asciiTables "x" = false ∧
        (IsAsciiLetter "x" ∨
          ∃ t ∈ findAllString "x = 5 - y", '.' ∈ t.data ∧ IsAfterLastDot t "x")) :=
  ⟨by decide, by decide,
    (extractWords_single_char asciiTables MapIter.insertion).1 "x = 5 - y" "x"
      (by decide) (by decide)⟩

/-- C7: at a raw token that contains a dot the loop body adds to the map
nothing but what stands after the last dot of the token; so for a content that
is one such token every output word is that suffix, and for the content `a.b.c`
the output is exactly `c`, with none of `a.b.c`, `a`, `b`. -/
theorem extractWords_dotted (U : UnicodeTables) (it : MapIter) :
    (∀ (m : List String) (t x : String), '.' ∈ t.data → x ∈ extractWordsStep U m t →
        x ∈ m ∨ IsAfterLastDot t x) ∧
      (∀ content x : String, IsRawToken content → '.' ∈ content.data →
        x ∈ extractWords U it content → IsAfterLastDot content x) ∧
      extractWords U it "a.b.c" = ["c"] ∧
      IsAfterLastDot "a.b.c" "c" ∧
      "a.b.c" ∉ extractWords U it "a.b.c" ∧
      "a" ∉ extractWords U it "a.b.c" ∧
      "b" ∉ extractWords U it "a.b.c" := by
  have hstep : ∀ (m : List String) (t x : String), '.' ∈ t.data →
      x ∈ extractWordsStep U m t → x ∈ m ∨ IsAfterLastDot t x := by
    intro m t x hdot hx
    rw [extractWordsStep_eq, mem_foldl_mapInsert] at hx
    rcases hx with hx | hx
    · exact Or.inl hx
    · right
      obtain ⟨_, hcase⟩ := (mem_tokenWords U t x).mp hx
      rcases hcase with ⟨_, hxe, _⟩ | ⟨hnd, _⟩
      · rw [hxe]; exact dotSplit_getLastD t hdot
      · exact absurd hdot hnd
  have habc : extractWords U it "a.b.c" = ["c"] := by
    have h : extractWordsKeys U "a.b.c" = ["c"] := rfl
    unfold extractWords
    exact List.perm_singleton.mp (h ▸ it.perm _)
  refine ⟨hstep, ?_, habc, ⟨['a', '.', 'b'], rfl, by decide⟩, ?_, ?_, ?_⟩
  · intro content x htok hdot hx
    unfold extractWords at hx
    rw [(it.perm _).mem_iff] at hx
    unfold extractWordsKeys at hx
    rw [findAllString_rawToken content htok] at hx
    rcases hstep [] content x hdot hx with h | h
    · simp at h
    · exact h
  · rw [habc]; decide
  · rw [habc]; decide
  · rw [habc]; decide

/-- C7, on an instance: the token `foo.bar.baz` and its word `baz`. -/
theorem extractWords_dotted_witness :
    IsRawToken "foo.bar.baz" ∧ '.' ∈ "foo.bar.baz".data ∧
      "baz" ∈ extractWords asciiTables MapIter.insertion "foo.bar.baz" ∧
      IsAfterLastDot "foo.bar.baz" "baz" :=
  ⟨⟨by decide, by decide⟩, by decide, by decide,
    (extractWords_dotted asciiTables MapIter.insertion).2.1 "foo.bar.baz" "baz"
      ⟨by decide, by decide⟩ (by decide) (by decide)⟩

/-- C8: every key of `blacklist` equals its own lowercased form; hence a word
is reserved exactly when it matches a key up to lowering, the test gives the
same answer for a word and for any ASCII case variant of it, and `function`,
`Function` and `FUNCTION` are all reserved. -/
theorem blacklist_keys_lowercase (U : UnicodeTables) :
    (∀ k ∈ blacklist, toLower U k = k) ∧
      (∀ w : String, isReserved U w = true ↔ ∃ k ∈ blacklist, toLower U w = toLower U k) ∧
      (∀ w v : String, AsciiCaseVariant w v → isReserved U w = isReserved U v) ∧
      isReserved U "function" = true ∧
      isReserved U "Function" = true ∧
      isReserved U "FUNCTION" = true := by
  have hkeys : ∀ k ∈ blacklist, toLower U k = k := fun k hk =>
    toLower_eq_self U k (blacklist_lowercase k hk)
  refine ⟨hkeys, ?_, ?_, rfl, rfl, rfl⟩
  · intro w
    rw [isReserved_iff]
    constructor
    · intro h
      exact ⟨toLower U w, h, (hkeys _ h).symm⟩
    · rintro ⟨k, hk, e⟩
      rw [e, hkeys k hk]
      exact hk
  · intro w v h
    unfold isReserved
    rw [toLower_congr U w v h]

/-- C8, on an instance: `FUNCTION` is an ASCII case variant of `function`. -/
theorem blacklist_keys_lowercase_witness :
    AsciiCaseVariant "FUNCTION" "function" ∧
      isReserved asciiTables "FUNCTION" = isReserved asciiTables "function" :=
  ⟨rfl, (blacklist_keys_lowercase asciiTables).2.2.1 "FUNCTION" "function" rfl⟩

/-- C9: the word sequence returned by `extractWords` has no duplicates for every
content, and the word sequence printed by `extractURLPathWords` has none for
every path and query, and for every URL string whatever the library makes of it. -/
theorem outputs_nodup (L : URLLib) (U : UnicodeTables) (it : MapIter) :
    (∀ content : String, (extractWords U it content).Nodup) ∧
      (∀ path query : String, (extractURLPathWordsFrom U it path query).Nodup) ∧
      (∀ urlStr : String, (extractURLPathWords L U it urlStr).Nodup) := by
  have hfrom : ∀ path query : String, (extractURLPathWordsFrom U it path query).Nodup := by
    intro path query
    unfold extractURLPathWordsFrom
    exact (it.perm _).nodup_iff.mpr (nodup_urlWordKeys U path query)
  refine ⟨?_, hfrom, ?_⟩
  · intro content
    unfold extractWords
    exact (it.perm _).nodup_iff.mpr (nodup_extractWordsKeys U content)
  · intro urlStr
    unfold extractURLPathWords
    cases L.parse urlStr with
    | none => exact List.nodup_nil
    | some pq => exact hfrom _ _

/-- C10: a raw token whose final character is a dot contributes no word: the
loop body leaves the map as it is, and for a content that is one such token
(as `foo.`, `a.b.` and `.`) `extractWords` returns the empty result. -/
theorem extractWords_final_dot (U : UnicodeTables) (it : MapIter) :
    (∀ (m : List String) (t : String), t.data.getLast? = some '.' →
        extractWordsStep U m t = m) ∧
      (∀ content : String, IsRawToken content → content.data.getLast? = some '.' →
        extractWords U it content = []) ∧
      extractWords U it "foo." = [] ∧
      extractWords U it "a.b." = [] ∧
      extractWords U it "." = [] := by
  have hstep : ∀ (m : List String) (t : String), t.data.getLast? = some '.' →
      extractWordsStep U m t = m := by
    intro m t hlast
    have hnil : tokenWords U t = [] := by
      rw [List.eq_nil_iff_forall_not_mem]
      intro x hx
      obtain ⟨hdot, hempty⟩ := getLastD_of_final_dot t hlast
      obtain ⟨_, hcase⟩ := (mem_tokenWords U t x).mp hx
      rcases hcase with ⟨_, hxe, hxne⟩ | ⟨hnd, _⟩
      · rw [hempty] at hxe
        exact hxne hxe
      · exact hnd hdot
    rw [extractWordsStep_eq, hnil]
    rfl
  have hcontent : ∀ content : String, IsRawToken content →
      content.data.getLast? = some '.' → extractWords U it content = [] := by
    intro content htok hlast
    have h : extractWordsKeys U content = [] := by
      unfold extractWordsKeys
      rw [findAllString_rawToken content htok]
      exact hstep [] content hlast
    unfold extractWords
    exact List.perm_nil.mp (h ▸ it.perm _)
  exact ⟨hstep, hcontent, hcontent "foo." ⟨by decide, by decide⟩ (by decide),
    hcontent "a.b." ⟨by decide, by decide⟩ (by decide),
    hcontent "." ⟨by decide, by decide⟩ (by decide)⟩

/-- C10, on an instance: the content `bar.baz.`. -/
theorem extractWords_final_dot_witness :
    IsRawToken "bar.baz." ∧ "bar.baz.".data.getLast? = some '.' ∧
      extractWords asciiTables MapIter.insertion "bar.baz." = [] :=
  ⟨⟨by decide, by decide⟩, by decide,
    (extractWords_final_dot asciiTables MapIter.insertion).2.1 "bar.baz."
      ⟨by decide, by decide⟩ (by decide)⟩

/-- C11: `extractWords` on the empty string returns the empty result, and so it
does on every content that has no character of the class `[A-Za-z0-9_\-.]`. -/
theorem extractWords_no_word_char (U : UnicodeTables) (it : MapIter) :
    extractWords U it "" = [] ∧
      ∀ content : String, (∀ c ∈ content.data, isWordChar c = false) →
        extractWords U it content = [] := by
  have hloop : ∀ cs : List Char, (∀ c ∈ cs, isWordChar c = false) →
      findAllLoop cs none = [] := by
    intro cs
    induction cs with
    | nil => intro _; rfl
    | cons c cs ih =>
        intro h
        simp only [findAllLoop]
        rw [if_neg (by rw [h c (List.mem_cons_self c cs)]; simp)]
        exact ih (fun d hd => h d (List.mem_cons_of_mem c hd))
  have hall : ∀ content : String, (∀ c ∈ content.data, isWordChar c = false) →
      extractWords U it content = [] := by
    intro content h
    have hk : extractWordsKeys U content = [] := by
      unfold extractWordsKeys findAllString
      rw [hloop content.data h]
      rfl
    unfold extractWords
    exact List.perm_nil.mp (hk ▸ it.perm _)
  exact ⟨hall "" (by decide), hall⟩

/-- C11, on an instance: a content of blanks, brackets and operators. -/
theorem extractWords_no_word_char_witness :
    (∀ c ∈ " (+) ; ".data, isWordChar c = false) ∧
      extractWords asciiTables MapIter.insertion " (+) ; " = [] :=
  ⟨by decide,
    (extractWords_no_word_char asciiTables MapIter.insertion).2 " (+) ; " (by decide)⟩

/-- C12: once the URL is parsed, a failure to decode the path (or the query)
does not stop the extraction: the words are those of the path as parsed
(respectively the query as parsed), computed by the same function as for a
decoded string, so every non-reserved segment of the undecoded string is
printed; and when the decoding succeeds the decoded string is the one used. -/
theorem extractURLPathWords_decode_fallback (L : URLLib) (U : UnicodeTables) (it : MapIter)
    (urlStr rawPath rawQuery : String) (hparse : L.parse urlStr = some (rawPath, rawQuery)) :
    (L.pathUnescape rawPath = none →
        extractURLPathWords L U it urlStr =
            extractURLPathWordsFrom U it rawPath ((L.queryUnescape rawQuery).getD rawQuery) ∧
          ∀ p ∈ fieldsFunc isPathDelim rawPath, isReserved U p = false →
            p ∈ extractURLPathWords L U it urlStr) ∧
      (L.queryUnescape rawQuery = none →
        extractURLPathWords L U it urlStr =
            extractURLPathWordsFrom U it ((L.pathUnescape rawPath).getD rawPath) rawQuery ∧
          ∀ p ∈ fieldsFunc isQueryDelim rawQuery, isReserved U p = false →
            p ∈ extractURLPathWords L U it urlStr) ∧
      (∀ decodedPath : String, L.pathUnescape rawPath = some decodedPath →
        extractURLPathWords L U it urlStr =
          extractURLPathWordsFrom U it decodedPath
            ((L.queryUnescape rawQuery).getD rawQuery)) ∧
      (∀ decodedQuery : String, L.queryUnescape rawQuery = some decodedQuery →
        extractURLPathWords L U it urlStr =
          extractURLPathWordsFrom U it ((L.pathUnescape rawPath).getD rawPath)
            decodedQuery) := by
  have heq : extractURLPathWords L U it urlStr =
      extractURLPathWordsFrom U it ((L.pathUnescape rawPath).getD rawPath)
        ((L.queryUnescape rawQuery).getD rawQuery) := by
    unfold extractURLPathWords
    rw [hparse]
    dsimp only
    cases h1 : L.pathUnescape rawPath <;> cases h2 : L.queryUnescape rawQuery <;> rfl
  have hmem : ∀ path query p : String,
      (p ∈ fieldsFunc isPathDelim path ∨ p ∈ fieldsFunc isQueryDelim query) →
        isReserved U p = false → p ∈ extractURLPathWordsFrom U it path query := by
    intro path query p hp hr
    unfold extractURLPathWordsFrom
    rw [(it.perm _).mem_iff, mem_urlWordKeys]
    refine ⟨p, hp, (mem_partWords U p p).mpr ⟨⟨?_, hr⟩, Or.inl rfl⟩⟩
    rcases hp with hp | hp
    · exact fieldsFunc_ne_empty _ _ _ hp
    · exact fieldsFunc_ne_empty _ _ _ hp
  refine ⟨?_, ?_, ?_, ?_⟩
  · intro hnone
    have e : extractURLPathWords L U it urlStr =
        extractURLPathWordsFrom U it rawPath ((L.queryUnescape rawQuery).getD rawQuery) := by
      rw [heq, hnone]; rfl
    refine ⟨e, ?_⟩
    intro p hp hr
    rw [e]
    exact hmem _ _ p (Or.inl hp) hr
  · intro hnone
    have e : extractURLPathWords L U it urlStr =
        extractURLPathWordsFrom U it ((L.pathUnescape rawPath).getD rawPath) rawQuery := by
      rw [heq, hnone]; rfl
    refine ⟨e, ?_⟩
    intro p hp hr
    rw [e]
    exact hmem _ _ p (Or.inr hp) hr
  · intro d hd
    rw [heq, hd]; rfl
  · intro d hd
    rw [heq, hd]; rfl

/-- C12, on an instance: the path `/a%zz` cannot be decoded and is used as it
is, the query `b+c` is decoded to `b c` and the decoded string is used. -/
theorem extractURLPathWords_decode_fallback_witness :
    extractURLPathWords decodingLib asciiTables MapIter.insertion "http://h/a%zz?b+c" =
        extractURLPathWordsFrom asciiTables MapIter.insertion "/a%zz" "b c" ∧
      extractURLPathWords decodingLib asciiTables MapIter.insertion "http://h/a%zz?b+c" =
        ["a%zz", "b c"] :=
  ⟨((extractURLPathWords_decode_fallback decodingLib asciiTables MapIter.insertion
      "http://h/a%zz?b+c" "/a%zz" "b+c" rfl).1 rfl).1, by decide⟩

/-! ## The dispatch of processURL -/

/-- `stringsContains` is the substring test. -/
theorem stringsContains_iff (s substr : String) :
    stringsContains s substr = true ↔ substr.data <:+: s.data := by
  unfold stringsContains
  rw [List.any_eq_true, List.infix_iff_prefix_suffix]
  constructor
  · rintro ⟨t, ht, hp⟩
    exact ⟨t, List.isPrefixOf_iff_prefix.mp hp, (List.mem_tails t s.data).mp ht⟩
  · rintro ⟨t, hp, ht⟩
    exact ⟨t, (List.mem_tails t s.data).mpr ht, List.isPrefixOf_iff_prefix.mpr hp⟩

/-- C13: in script mode (`jsFlag` set, `urlFlag` not set) `processURL` requests
and tokenizes an input only if the input contains both `://` and `.js`; an
input lacking either is skipped: nothing is requested, no word is printed, one
diagnostic is written.  An input containing both is requested, and the words of
the fetched content are printed. -/
theorem processURL_script_mode (L : URLLib) (U : UnicodeTables) (it : MapIter)
    (urlStr : String) (config : Config)
    (hjs : config.jsFlag = true) (hurl : config.urlFlag = false) :
    (((processURL L U it urlStr config).requests ≠ [] ∨
          (processURL L U it urlStr config).stdout ≠ []) →
        ("://".data <:+: urlStr.data ∧ ".js".data <:+: urlStr.data)) ∧
      ((¬ "://".data <:+: urlStr.data ∨ ¬ ".js".data <:+: urlStr.data) →
        processURL L U it urlStr config = Outcome.mk [] [] [Diagnostic.badURL urlStr]) ∧
      (("://".data <:+: urlStr.data ∧ ".js".data <:+: urlStr.data) →
        (processURL L U it urlStr config).requests = [urlStr] ∧
          (∀ content : String, fetchURL urlStr config = Except.ok content →
            (processURL L U it urlStr config).stdout = extractWords U it content) ∧
          (∀ err : String, fetchURL urlStr config = Except.error err →
            (processURL L U it urlStr config).stdout = [])) := by
  have hbad : (¬ "://".data <:+: urlStr.data ∨ ¬ ".js".data <:+: urlStr.data) →
      processURL L U it urlStr config = Outcome.mk [] [] [Diagnostic.badURL urlStr] := by
    intro h
    have hc : (!stringsContains urlStr "://" || !stringsContains urlStr ".js") = true := by
      rw [← stringsContains_iff, ← stringsContains_iff] at h
      rcases h with h | h
      · simp [h]
      · simp [h]
    unfold processURL
    rw [hurl, hjs]
    simp only [if_true, Bool.false_eq_true, if_false]
    rw [if_pos hc]
  have hgood : ("://".data <:+: urlStr.data ∧ ".js".data <:+: urlStr.data) →
      processURL L U it urlStr config =
        match fetchURL urlStr config with
        | Except.error err => Outcome.mk [urlStr] [] [Diagnostic.fetchError urlStr err]
        | Except.ok content => Outcome.mk [urlStr] (printWords (extractWords U it content)) [] := by
    intro h
    have hc : ¬ (!stringsContains urlStr "://" || !stringsContains urlStr ".js") = true := by
      rw [← stringsContains_iff, ← stringsContains_iff] at h
      simp [h.1, h.2]
    unfold processURL
    rw [hurl, hjs]
    simp only [if_true, Bool.false_eq_true, if_false]
    rw [if_neg hc]
  refine ⟨?_, hbad, ?_⟩
  · intro hout
    by_contra hnot
    have hb := hbad (by tauto)
    rw [hb] at hout
    simp at hout
  · intro h
    have hg := hgood h
    refine ⟨?_, ?_, ?_⟩
    · rw [hg]; cases fetchURL urlStr config <;> rfl
    · intro content hf
      rw [hg, hf]; rfl
    · intro err hf
      rw [hg, hf]

/-- C13, on instances: with the script flag alone, `https://h.io/app.js` is
requested and its words are printed, and `https://h.io/app.css` is skipped. -/
theorem processURL_script_mode_witness :
    processURL exampleLib asciiTables MapIter.insertion "https://h.io/app.js"
        (exampleConfig true false) = Outcome.mk ["https://h.io/app.js"] ["bar"] [] ∧
      processURL exampleLib asciiTables MapIter.insertion "https://h.io/app.css"
        (exampleConfig true false) =
          Outcome.mk [] [] [Diagnostic.badURL "https://h.io/app.css"] :=
  ⟨by decide,
    (processURL_script_mode exampleLib asciiTables MapIter.insertion "https://h.io/app.css"
      (exampleConfig true false) rfl rfl).2.1 (Or.inr (by decide))⟩

/-- C19: whenever `urlFlag` is set the input goes through the extraction of
URL path and query words whatever `jsFlag` is: nothing is requested from the
network, and what is printed is the output of `extractURLPathWords`; when
neither flag is set, no word is printed for any input (and nothing is requested). -/
theorem processURL_mode_precedence (L : URLLib) (U : UnicodeTables) (it : MapIter)
    (urlStr : String) (config : Config) :
    (config.urlFlag = true →
        (processURL L U it urlStr config).requests = [] ∧
          (processURL L U it urlStr config).stdout = extractURLPathWords L U it urlStr ∧
          processURL L U it urlStr config =
            processURL L U it urlStr (Config.mk (!config.jsFlag) true config.httpClient)) ∧
      (config.urlFlag = false → config.jsFlag = false →
        processURL L U it urlStr config = Outcome.mk [] [] [Diagnostic.noMode]) := by
  constructor
  · intro hurl
    simp [processURL, hurl]
  · intro hurl hjs
    unfold processURL
    rw [hurl, hjs]
    simp

/-- C19, on instances: with both flags set the URL of the example is split into
its words and nothing is requested; with no flag set nothing is printed. -/
theorem processURL_mode_precedence_witness :
    processURL exampleLib asciiTables MapIter.insertion
        "https://example.com/api/user-profile?sortBy=name" (exampleConfig true true) =
          Outcome.mk [] ["api", "user", "profile", "sortBy", "sort", "By"] [] ∧
      processURL exampleLib asciiTables MapIter.insertion "https://h.io/app.js"
        (exampleConfig false false) = Outcome.mk [] [] [Diagnostic.noMode] :=
  ⟨by decide,
    (processURL_mode_precedence exampleLib asciiTables MapIter.insertion "https://h.io/app.js"
      (exampleConfig false false)).2 rfl rfl⟩

/-! ## The loop of splitCamelCase -/

/-- The parts produced by the loop, put end to end, are the builder followed by
the runes still to read. -/
theorem splitCamelCaseLoop_flatten (U : UnicodeTables) (rs : List Char) :
    ∀ (i : Nat) (current : List Char),
      ((splitCamelCaseLoop U rs i current).map String.data).flatten = current ++ rs := by
  induction rs with
  | nil =>
      intro i current
      unfold splitCamelCaseLoop
      by_cases h : current ≠ []
      · rw [if_pos h]; simp
      · rw [if_neg h]
        have h2 : current = [] := by simpa using h
        simp [h2]
  | cons r rs ih =>
      intro i current
      unfold splitCamelCaseLoop
      split_ifs
      · simp [ih]
      · simp [ih]
      · simp [ih]

/-- Invariant of the loop: once a rune has been read the builder is not empty,
and no rune of the builder but the first is upper case.  Then every part is
non-empty and has no upper-case rune after its first, every part but the first
starts with an upper-case rune, and the first part starts with the builder. -/
theorem splitCamelCaseLoop_parts (U : UnicodeTables) (rs : List Char) :
    ∀ (i : Nat) (current : List Char),
      (0 < i → current ≠ []) → (i = 0 → current = []) →
      (∀ c ∈ current.tail, unicodeIsUpper U c = false) →
      (∀ p ∈ splitCamelCaseLoop U rs i current,
          p.data ≠ [] ∧ ∀ c ∈ p.data.tail, unicodeIsUpper U c = false) ∧
        (∀ p ∈ (splitCamelCaseLoop U rs i current).tail,
          ∃ c rest, p.data = c :: rest ∧ unicodeIsUpper U c = true) ∧
        (current ≠ [] → ∃ rest ps,
          splitCamelCaseLoop U rs i current = String.mk (current ++ rest) :: ps) := by
  induction rs with
  | nil =>
      intro i current _ _ htail
      unfold splitCamelCaseLoop
      by_cases h : current ≠ []
      · rw [if_pos h]
        refine ⟨?_, by simp, fun _ => ⟨[], [], by simp⟩⟩
        intro p hp
        rw [List.mem_singleton.mp hp]
        exact ⟨h, htail⟩
      · rw [if_neg h]
        exact ⟨by simp, by simp, fun h2 => absurd h2 h⟩
  | cons r rs ih =>
      intro i current hpos hzero htail
      have hnext : 0 < i + r.utf8Size := by
        have := r.utf8Size_pos
        omega
      unfold splitCamelCaseLoop
      by_cases hcond : 0 < i ∧ unicodeIsUpper U r = true
      · rw [if_pos hcond, if_pos (hpos hcond.1)]
        obtain ⟨h1, h2, h3⟩ := ih (i + r.utf8Size) [r] (fun _ => by simp)
          (fun h => by omega) (by simp)
        obtain ⟨rest, ps, e⟩ := h3 (by simp)
        refine ⟨?_, ?_, fun _ =>
          ⟨[], splitCamelCaseLoop U rs (i + r.utf8Size) [r], by simp⟩⟩
        · intro p hp
          rcases List.mem_cons.mp hp with hp | hp
          · rw [hp]; exact ⟨hpos hcond.1, htail⟩
          · exact h1 p hp
        · intro p hp
          rw [List.tail_cons] at hp
          rw [e] at hp h2
          rcases List.mem_cons.mp hp with hp | hp
          · rw [hp]; exact ⟨r, rest, rfl, hcond.2⟩
          · exact h2 p (by simpa using hp)
      · rw [if_neg hcond]
        have htail2 : ∀ c ∈ (current ++ [r]).tail, unicodeIsUpper U c = false := by
          intro c hc
          cases current with
          | nil => simp at hc
          | cons a l =>
              have hi : 0 < i := by
                rcases Nat.eq_zero_or_pos i with h0 | h0
                · exact absurd (hzero h0) (by simp)
                · exact h0
              simp only [List.cons_append, List.tail_cons, List.mem_append,
                List.mem_singleton] at hc
              rcases hc with hc | hc
              · exact htail c (by simpa using hc)
              · rw [hc]
                by_contra hu
                exact hcond ⟨hi, by simpa using hu⟩
        obtain ⟨h1, h2, h3⟩ := ih (i + r.utf8Size) (current ++ [r]) (fun _ => by simp)
          (fun h => by omega) htail2
        refine ⟨h1, h2, ?_⟩
        intro _
        obtain ⟨rest, ps, e⟩ := h3 (by simp)
        exact ⟨r :: rest, ps, by rw [e]; simp⟩

/-- C16: for every string, every part returned by `splitCamelCase` is
non-empty, every part after the first begins with an upper-case letter, and no
part has an upper-case letter at a position other than its first; so a
character that is not upper case, as an ASCII digit or punctuation sign, never
begins a part other than the first. -/
theorem splitCamelCase_boundaries (U : UnicodeTables) (s : String) :
    (∀ p ∈ splitCamelCase U s, p ≠ "") ∧
      (∀ p ∈ (splitCamelCase U s).tail,
        ∃ c rest, p.data = c :: rest ∧ unicodeIsUpper U c = true) ∧
      (∀ p ∈ splitCamelCase U s, ∀ c ∈ p.data.tail, unicodeIsUpper U c = false) ∧
      (∀ p ∈ (splitCamelCase U s).tail, ∀ c : Char, p.data.head? = some c →
        c.toNat < 128 → c.isAlpha = true) := by
  obtain ⟨h1, h2, _⟩ := splitCamelCaseLoop_parts U s.data 0 [] (fun h => absurd h (by omega))
    (fun _ => rfl) (by simp)
  refine ⟨?_, h2, fun p hp => (h1 p hp).2, ?_⟩
  · intro p hp he
    exact (h1 p hp).1 (congrArg String.data he)
  · intro p hp c hc hascii
    obtain ⟨d, rest, e, hu⟩ := h2 p hp
    rw [e] at hc
    simp only [List.head?_cons, Option.some.injEq] at hc
    rw [← hc]
    rw [← hc] at hascii
    unfold unicodeIsUpper at hu
    rw [if_pos hascii] at hu
    simp [Char.isAlpha, hu]

/-- C17: `splitCamelCase` loses and reorders nothing: the parts of a string,
put end to end in order, are the string; and the empty string has no part. -/
theorem splitCamelCase_join (U : UnicodeTables) (s : String) :
    String.join (splitCamelCase U s) = s ∧ splitCamelCase U "" = [] := by
  constructor
  · rw [String.join_eq]
    unfold splitCamelCase
    rw [splitCamelCaseLoop_flatten]
    rfl
  · rfl

/-! ## Fields and maximal runs -/

theorem getLast?_cons_of_some (c x : Char) (pre : List Char) (h : pre.getLast? = some x) :
    (c :: pre).getLast? = some x := by
  cases pre with
  | nil => simp at h
  | cons a l => rw [List.getLast?_cons_cons]; exact h

theorem getLast?_cons_cases (c x : Char) (pre : List Char)
    (h : (c :: pre).getLast? = some x) :
    (pre = [] ∧ x = c) ∨ pre.getLast? = some x := by
  cases pre with
  | nil =>
      left
      simp at h
      exact ⟨rfl, h.symm⟩
  | cons a l =>
      right
      rw [List.getLast?_cons_cons] at h
      exact h

/-- What the scanning loop returns is made of fields: with no field open, the
fields of what is left to read; with the field `cur` open, `cur` extended by
the run that starts what is left, and the fields that start later. -/
theorem fieldsFuncLoop_sound (f : Char → Bool) (rs : List Char) :
    (∀ t ∈ fieldsFuncLoop f rs none, IsField f rs t.data) ∧
      (∀ cur : List Char, ∀ t ∈ fieldsFuncLoop f rs (some cur),
        (∃ r post, rs = r ++ post ∧ (∀ c ∈ r, f c = false) ∧
            (∀ c, post.head? = some c → f c = true) ∧ t.data = cur ++ r) ∨
          (∃ pre post x, rs = pre ++ t.data ++ post ∧ t.data ≠ [] ∧
            (∀ c ∈ t.data, f c = false) ∧ pre.getLast? = some x ∧ f x = true ∧
            (∀ c, post.head? = some c → f c = true))) := by
  induction rs with
  | nil =>
      constructor
      · intro t ht
        simp [fieldsFuncLoop] at ht
      · intro cur t ht
        simp only [fieldsFuncLoop, List.mem_singleton] at ht
        left
        exact ⟨[], [], rfl, by simp, by simp, by rw [ht]; simp⟩
  | cons a rs ih =>
      obtain ⟨ihn, ihs⟩ := ih
      constructor
      · intro t ht
        simp only [fieldsFuncLoop] at ht
        by_cases ha : f a = true
        · rw [if_pos ha] at ht
          obtain ⟨pre, post, e, hne, hall, hpre, hpost⟩ := ihn t ht
          refine ⟨a :: pre, post, by rw [e]; rfl, hne, hall, ?_, hpost⟩
          intro c hc
          rcases getLast?_cons_cases a c pre hc with ⟨_, h⟩ | h
          · rw [h]; exact ha
          · exact hpre c h
        · rw [if_neg ha] at ht
          have ha2 : f a = false := by simpa using ha
          rcases ihs [a] t ht with ⟨r, post, e, hall, hpost, ht2⟩ | ⟨pre, post, x, e, hne, hall, hx, hfx, hpost⟩
          · refine ⟨[], post, by rw [e, ht2]; rfl, by rw [ht2]; simp, ?_, by simp, hpost⟩
            intro c hc
            rw [ht2] at hc
            rcases List.mem_append.mp hc with hc | hc
            · rw [List.mem_singleton.mp hc]; exact ha2
            · exact hall c hc
          · refine ⟨a :: pre, post, by rw [e]; rfl, hne, hall, ?_, hpost⟩
            intro c hc
            rw [getLast?_cons_of_some a x pre hx] at hc
            cases hc
            exact hfx
      · intro cur t ht
        simp only [fieldsFuncLoop] at ht
        by_cases ha : f a = true
        · rw [if_pos ha] at ht
          rcases List.mem_cons.mp ht with ht | ht
          · left
            refine ⟨[], a :: rs, rfl, by simp, ?_, by rw [ht]; simp⟩
            intro c hc
            simp only [List.head?_cons, Option.some.injEq] at hc
            rw [← hc]; exact ha
          · right
            obtain ⟨pre, post, e, hne, hall, hpre, hpost⟩ := ihn t ht
            cases pre with
            | nil =>
                exact ⟨[a], post, a, by rw [e]; rfl, hne, hall, rfl, ha, hpost⟩
            | cons b l =>
                obtain ⟨x, hx⟩ : ∃ x, (b :: l).getLast? = some x :=
                  ⟨(b :: l).getLast (by simp), List.getLast?_eq_getLast _ (by simp)⟩
                exact ⟨a :: b :: l, post, x, by rw [e]; rfl, hne, hall,
                  getLast?_cons_of_some a x _ hx, hpre x hx, hpost⟩
        · rw [if_neg ha] at ht
          have ha2 : f a = false := by simpa using ha
          rcases ihs (cur ++ [a]) t ht with ⟨r, post, e, hall, hpost, ht2⟩ | ⟨pre, post, x, e, hne, hall, hx, hfx, hpost⟩
          · left
            refine ⟨a :: r, post, by rw [e]; rfl, ?_, hpost, by rw [ht2]; simp⟩
            intro c hc
            rcases List.mem_cons.mp hc with hc | hc
            · rw [hc]; exact ha2
            · exact hall c hc
          · right
            exact ⟨a :: pre, post, x, by rw [e]; rfl, hne, hall,
              getLast?_cons_of_some a x pre hx, hfx, hpost⟩

/-- Every field is returned by the scanning loop. -/
theorem fieldsFuncLoop_complete (f : Char → Bool) (rs : List Char) :
    (∀ t : String, IsField f rs t.data → t ∈ fieldsFuncLoop f rs none) ∧
      (∀ (cur : List Char) (t : String),
        ((∃ r post, rs = r ++ post ∧ (∀ c ∈ r, f c = false) ∧
            (∀ c, post.head? = some c → f c = true) ∧ t.data = cur ++ r) ∨
          (∃ pre post x, rs = pre ++ t.data ++ post ∧ t.data ≠ [] ∧
            (∀ c ∈ t.data, f c = false) ∧ pre.getLast? = some x ∧ f x = true ∧
            (∀ c, post.head? = some c → f c = true))) →
        t ∈ fieldsFuncLoop f rs (some cur)) := by
  induction rs with
  | nil =>
      constructor
      · rintro t ⟨pre, post, e, hne, _⟩
        exfalso
        have h := congrArg List.length e
        simp only [List.length_nil, List.length_append] at h
        have : 0 < t.data.length := List.length_pos.mpr hne
        omega
      · rintro cur t (⟨r, post, e, _, _, ht⟩ | ⟨pre, post, x, e, hne, _⟩)
        · have hr : r = [] := by
            have h := congrArg List.length e
            simp only [List.length_nil, List.length_append] at h
            exact List.length_eq_zero.mp (by omega)
          simp only [fieldsFuncLoop, List.mem_singleton]
          rw [hr, List.append_nil] at ht
          exact String.ext ht
        · exfalso
          have h := congrArg List.length e
          simp only [List.length_nil, List.length_append] at h
          have : 0 < t.data.length := List.length_pos.mpr hne
          omega
  | cons a rs ih =>
      obtain ⟨ihn, ihs⟩ := ih
      constructor
      · rintro t ⟨pre, post, e, hne, hall, hpre, hpost⟩
        simp only [fieldsFuncLoop]
        cases pre with
        | nil =>
            obtain ⟨b, t2, ht⟩ := List.exists_cons_of_ne_nil hne
            rw [ht] at e hall
            simp only [List.nil_append, List.cons_append, List.cons.injEq] at e
            have hb : f a = false := by rw [e.1]; exact hall b (List.mem_cons_self b t2)
            rw [if_neg (by rw [hb]; simp)]
            apply ihs
            left
            exact ⟨t2, post, e.2, fun c hc => hall c (List.mem_cons_of_mem b hc), hpost,
              by rw [ht, e.1]; rfl⟩
        | cons b l =>
            simp only [List.cons_append, List.cons.injEq] at e
            by_cases ha : f a = true
            · rw [if_pos ha]
              apply ihn
              exact ⟨l, post, e.2, hne, hall,
                fun c hc => hpre c (getLast?_cons_of_some b c l hc), hpost⟩
            · rw [if_neg ha]
              apply ihs
              right
              cases l with
              | nil =>
                  exfalso
                  exact ha (by rw [e.1]; exact hpre b rfl)
              | cons d l2 =>
                  obtain ⟨x, hx⟩ : ∃ x, (d :: l2).getLast? = some x :=
                    ⟨(d :: l2).getLast (by simp), List.getLast?_eq_getLast _ (by simp)⟩
                  exact ⟨d :: l2, post, x, e.2, hne, hall, hx,
                    hpre x (getLast?_cons_of_some b x _ hx), hpost⟩
      · rintro cur t (⟨r, post, e, hall, hpost, ht⟩ | ⟨pre, post, x, e, hne, hall, hx, hfx, hpost⟩)
        · simp only [fieldsFuncLoop]
          cases r with
          | nil =>
              simp only [List.nil_append] at e
              have ha : f a = true := hpost a (by rw [← e]; rfl)
              rw [if_pos ha]
              rw [List.append_nil] at ht
              exact List.mem_cons.mpr (Or.inl (String.ext ht))
          | cons b r2 =>
              simp only [List.cons_append, List.cons.injEq] at e
              have hb : f a = false := by rw [e.1]; exact hall b (List.mem_cons_self b r2)
              rw [if_neg (by rw [hb]; simp)]
              apply ihs
              left
              exact ⟨r2, post, e.2, fun c hc => hall c (List.mem_cons_of_mem b hc), hpost,
                by rw [ht, e.1]; simp⟩
        · simp only [fieldsFuncLoop]
          cases pre with
          | nil => simp at hx
          | cons b l =>
              simp only [List.cons_append, List.cons.injEq] at e
              have hl : (l = [] ∧ x = b) ∨ l.getLast? = some x :=
                getLast?_cons_cases b x l hx
              by_cases ha : f a = true
              · rw [if_pos ha]
                apply List.mem_cons_of_mem
                apply ihn
                refine ⟨l, post, e.2, hne, hall, ?_, hpost⟩
                intro c hc
                rcases hl with ⟨hl, _⟩ | hl
                · rw [hl] at hc; simp at hc
                · rw [hl] at hc
                  cases hc
                  exact hfx
              · rw [if_neg ha]
                apply ihs
                right
                rcases hl with ⟨_, hxb⟩ | hl
                · exfalso
                  exact ha (by rw [e.1, ← hxb]; exact hfx)
                · exact ⟨l, post, x, e.2, hne, hall, hl, hfx, hpost⟩

/-- The fields returned by `fieldsFunc` are exactly the maximal runs of
characters that are not delimiters. -/
theorem mem_fieldsFunc (f : Char → Bool) (s t : String) :
    t ∈ fieldsFunc f s ↔ IsField f s.data t.data :=
  ⟨(fieldsFuncLoop_sound f s.data).1 t, (fieldsFuncLoop_complete f s.data).1 t⟩

theorem findAllLoop_eq_fieldsFuncLoop (cs : List Char) :
    ∀ cur : Option (List Char),
      findAllLoop cs cur = fieldsFuncLoop (fun c => !isWordChar c) cs cur := by
  induction cs with
  | nil => intro cur; cases cur <;> rfl
  | cons c cs ih =>
      intro cur
      cases cur with
      | none =>
          simp only [findAllLoop, fieldsFuncLoop]
          by_cases h : isWordChar c = true
          · simp [h, ih]
          · simp [h, ih]
      | some l =>
          simp only [findAllLoop, fieldsFuncLoop]
          by_cases h : isWordChar c = true
          · simp [h, ih]
          · simp [h, ih]

/-- The matches of the word pattern are exactly the maximal runs of characters
of the token class. -/
theorem mem_findAllString (content t : String) :
    t ∈ findAllString content ↔ IsMaximalRun content t := by
  unfold findAllString IsMaximalRun
  rw [findAllLoop_eq_fieldsFuncLoop]
  exact mem_fieldsFunc (fun c => !isWordChar c) content t

/-! ## Exact characterizations -/

theorem isWordChar_of_isMaximalRun (content t : String) (h : IsMaximalRun content t) :
    t.data ≠ [] ∧ (∀ c ∈ t.data, isWordChar c = true) ∧ t.data <:+: content.data := by
  obtain ⟨pre, post, e, hne, hall, _, _⟩ := h
  refine ⟨hne, ?_, ⟨pre, post, e.symm⟩⟩
  intro c hc
  have := hall c hc
  simpa using this

theorem utf8ByteSize_of_wordChars (t : String) (h : ∀ c ∈ t.data, isWordChar c = true) :
    t.utf8ByteSize = t.length := by
  have h1 : t.utf8ByteSize = String.utf8Len t.data := rfl
  have h2 : t.length = t.data.length := rfl
  rw [h1, h2]
  exact utf8Len_of_ascii t.data (fun c hc => toNat_lt_of_isWordChar c (h c hc))

theorem utf8FirstByte_of_letter (c : Char) (h : c.isAlpha = true) :
    (97 ≤ utf8FirstByte c ∧ utf8FirstByte c ≤ 122) ∨
      (65 ≤ utf8FirstByte c ∧ utf8FirstByte c ≤ 90) := by
  rw [isAlpha_iff] at h
  unfold utf8FirstByte
  rw [if_pos (by omega)]
  omega

/-- C14: exact characterization of `extractWords`: a string `w` is in the
output if and only if the content has a maximal run `t` of characters of the
class `[A-Za-z0-9_\-.]` such that `w` is not reserved and either (a) `t` has a
dot, `w` is what stands after the last dot of `t`, and `w` is not empty; or (b)
`t` has length 1, is an ASCII letter, and `w = t`; or (c) `t` has length at
least 2, has no dot, and `w = t`. -/
theorem extractWords_characterization (U : UnicodeTables) (it : MapIter)
    (content w : String) :
    w ∈ extractWords U it content ↔
      ∃ t : String, IsMaximalRun content t ∧ isReserved U w = false ∧
        (('.' ∈ t.data ∧ IsAfterLastDot t w ∧ w ≠ "") ∨
          (t.length = 1 ∧ IsAsciiLetter t ∧ w = t) ∨
          (2 ≤ t.length ∧ '.' ∉ t.data ∧ w = t)) := by
  rw [mem_extractWords]
  constructor
  · rintro ⟨t, ht, hx⟩
    rw [mem_findAllString] at ht
    obtain ⟨hne, hall, _⟩ := isWordChar_of_isMaximalRun content t ht
    obtain ⟨hr, hcase⟩ := (mem_tokenWords U t w).mp hx
    refine ⟨t, ht, hr, ?_⟩
    rcases hcase with ⟨hdot, hwt, hwne⟩ | ⟨hnd, hwt, hbyte⟩
    · left
      exact ⟨hdot, hwt ▸ dotSplit_getLastD t hdot, hwne⟩
    · right
      have hlen : 0 < t.length := List.length_pos.mpr hne
      by_cases h1 : t.length = 1
      · left
        have hsize : t.utf8ByteSize = 1 := by rw [utf8ByteSize_of_wordChars t hall, h1]
        obtain ⟨c, hc⟩ := data_of_utf8ByteSize_one t hsize
        have hb := hbyte hsize
        unfold byteAt0 at hb
        rw [hc] at hb
        exact ⟨h1, ⟨c, hc, utf8FirstByte_letter c hb⟩, hwt⟩
      · right
        exact ⟨by omega, hnd, hwt⟩
  · rintro ⟨t, ht, hr, hcase⟩
    obtain ⟨_, hall, _⟩ := isWordChar_of_isMaximalRun content t ht
    refine ⟨t, (mem_findAllString content t).mpr ht, (mem_tokenWords U t w).mpr ⟨hr, ?_⟩⟩
    rcases hcase with ⟨hdot, hafter, hwne⟩ | ⟨h1, ⟨c, hc, hletter⟩, hwt⟩ | ⟨h2, hnd, hwt⟩
    · left
      exact ⟨hdot, isAfterLastDot_unique t w _ hafter (dotSplit_getLastD t hdot), hwne⟩
    · right
      refine ⟨?_, hwt, ?_⟩
      · rw [hc, List.mem_singleton]
        intro hdot
        rw [← hdot] at hletter
        revert hletter
        decide
      · intro _
        unfold byteAt0
        rw [hc]
        exact utf8FirstByte_of_letter c hletter
    · right
      refine ⟨hnd, hwt, ?_⟩
      intro hsize
      rw [utf8ByteSize_of_wordChars t hall] at hsize
      omega

/-- C15: exact characterization of the URL-mode output: for every decoded path
and query, `w` is in the result if and only if there is a non-empty segment `p`
(of the path split on `/`, `-`, `_`, `.`, `=` or of the query split on `&`,
`=`, `;`) that is not reserved, and `w` is not reserved, and `w = p` or `w` is a
non-empty element of `splitCamelCase p`; so every output word is non-empty and
not reserved.  The segments are the maximal runs of non-delimiters. -/
theorem extractURLPathWords_characterization (U : UnicodeTables) (it : MapIter)
    (path query w : String) :
    (w ∈ extractURLPathWordsFrom U it path query ↔
        ∃ p : String,
          (p ∈ fieldsFunc isPathDelim path ∨ p ∈ fieldsFunc isQueryDelim query) ∧
            p ≠ "" ∧ isReserved U p = false ∧ isReserved U w = false ∧
            (w = p ∨ (w ∈ splitCamelCase U p ∧ w ≠ ""))) ∧
      (w ∈ extractURLPathWordsFrom U it path query → w ≠ "" ∧ isReserved U w = false) ∧
      (∀ p : String, (p ∈ fieldsFunc isPathDelim path ↔ IsField isPathDelim path.data p.data) ∧
        (p ∈ fieldsFunc isQueryDelim query ↔ IsField isQueryDelim query.data p.data)) := by
  have hiff : w ∈ extractURLPathWordsFrom U it path query ↔
      ∃ p : String,
        (p ∈ fieldsFunc isPathDelim path ∨ p ∈ fieldsFunc isQueryDelim query) ∧
          p ≠ "" ∧ isReserved U p = false ∧ isReserved U w = false ∧
          (w = p ∨ (w ∈ splitCamelCase U p ∧ w ≠ "")) := by
    unfold extractURLPathWordsFrom
    rw [(it.perm _).mem_iff, mem_urlWordKeys]
    constructor
    · rintro ⟨p, hp, hx⟩
      obtain ⟨⟨hne, hr⟩, hcase⟩ := (mem_partWords U p w).mp hx
      refine ⟨p, hp, hne, hr, ?_, ?_⟩
      · rcases hcase with h | ⟨_, _, h⟩
        · rw [h]; exact hr
        · exact h
      · rcases hcase with h | ⟨h1, h2, _⟩
        · exact Or.inl h
        · exact Or.inr ⟨h1, h2⟩
    · rintro ⟨p, hp, hne, hr, hwr, hcase⟩
      refine ⟨p, hp, (mem_partWords U p w).mpr ⟨⟨hne, hr⟩, ?_⟩⟩
      rcases hcase with h | ⟨h1, h2⟩
      · exact Or.inl h
      · exact Or.inr ⟨h1, h2, hwr⟩
  refine ⟨hiff, ?_, fun p => ⟨mem_fieldsFunc _ _ _, mem_fieldsFunc _ _ _⟩⟩
  intro hw
  obtain ⟨p, _, hne, _, hwr, hcase⟩ := hiff.mp hw
  refine ⟨?_, hwr⟩
  rcases hcase with h | ⟨_, h⟩
  · rw [h]; exact hne
  · exact h

/-- C15, on an instance: the word `By` of the query `sortBy=name`. -/
theorem extractURLPathWords_characterization_witness :
    "By" ≠ "" ∧ isReserved asciiTables "By" = false :=
  (extractURLPathWords_characterization asciiTables MapIter.insertion "/api/user-profile"
    "sortBy=name" "By").2.1 (by decide)

/-- C18: for every content, every word returned by `extractWords` consists of
ASCII letters, digits, `_` and `-` only (no dot, nothing outside the token
class), and occurs in the content as a run of consecutive characters. -/
theorem extractWords_chars_and_substring (U : UnicodeTables) (it : MapIter)
    (content w : String) (hw : w ∈ extractWords U it content) :
    (∀ c ∈ w.data, c.isAlphanum = true ∨ c = '_' ∨ c = '-') ∧
      '.' ∉ w.data ∧ w.data <:+: content.data := by
  obtain ⟨t, ht, hx⟩ := (mem_extractWords U it content w).mp hw
  rw [mem_findAllString] at ht
  obtain ⟨_, hall, hinfix⟩ := isWordChar_of_isMaximalRun content t ht
  obtain ⟨_, hcase⟩ := (mem_tokenWords U t w).mp hx
  have hsub : '.' ∉ w.data ∧ w.data <:+: t.data := by
    rcases hcase with ⟨hdot, hwt, _⟩ | ⟨hnd, hwt, _⟩
    · obtain ⟨pre, e, hno⟩ := hwt ▸ dotSplit_getLastD t hdot
      refine ⟨hno, ?_⟩
      rw [e]
      exact ⟨pre ++ ['.'], [], by simp⟩
    · rw [hwt]
      exact ⟨hnd, List.infix_refl _⟩
  refine ⟨?_, hsub.1, List.IsInfix.trans hsub.2 hinfix⟩
  intro c hc
  have hcw : isWordChar c = true := hall c (hsub.2.subset hc)
  have hcd : c ≠ '.' := fun e => hsub.1 (e ▸ hc)
  simp only [isWordChar, Bool.or_eq_true, beq_iff_eq] at hcw
  rcases hcw with ((h | h) | h) | h
  · exact Or.inl h
  · exact Or.inr (Or.inl h)
  · exact Or.inr (Or.inr h)
  · exact absurd h hcd

/-- C18, on an instance: the word `bar` of the content `var foo.bar`. -/
theorem extractWords_chars_and_substring_witness :
    "bar" ∈ extractWords asciiTables MapIter.insertion "var foo.bar" ∧
      ((∀ c ∈ "bar".data, c.isAlphanum = true ∨ c = '_' ∨ c = '-') ∧
        '.' ∉ "bar".data ∧ "bar".data <:+: "var foo.bar".data) :=
  ⟨by decide,
    extractWords_chars_and_substring asciiTables MapIter.insertion "var foo.bar" "bar"
      (by decide)⟩

/-- C16, on an instance: `D2` is a later part of `getUserID2`; it begins with
the upper-case letter `D`. -/
theorem splitCamelCase_boundaries_witness :
    "D2" ∈ (splitCamelCase asciiTables "getUserID2").tail ∧
      ∃ c rest, "D2".data = c :: rest ∧ unicodeIsUpper asciiTables c = true :=
  ⟨by decide, (splitCamelCase_boundaries asciiTables "getUserID2").2.1 "D2" (by decide)⟩

end Kew
